import Mathlib

/-!
Shallow embedding of the `object-deep-compare` library (repository
`deandum/deepcompare`, TypeScript implementation in `src/main.ts`, public
wrapper `index.ts`) and proofs about the claims of its specification.

JavaScript values are modelled as a heap of nodes (arrays, plain objects,
`Date`s, `RegExp`s) addressed by natural numbers, plus primitive values.
Reference identity (`===` on objects, `Map` keys of the visited ledgers)
is address equality.  Numbers are modelled as integers plus a separate
not-a-number sentinel; `Date` time values are integers; a `RegExp` is
identified by its `toString()` rendering, which is what the source
compares.  Recursive traversals take an explicit fuel argument; running
out of fuel is a distinguished error, so that a terminating run of the
JavaScript code corresponds to an `Except.ok` (or `.error (.circular _)`)
outcome for every sufficiently large fuel.
-/

namespace DeepCompare

/-- JavaScript primitive values: `undefined`, `null`, booleans, (integral)
numbers, the not-a-number sentinel, and strings. -/
inductive JPrim where
  | undef
  | null
  | bool (b : Bool)
  | num (n : Int)
  | nan
  | str (s : String)
deriving DecidableEq, Repr

/-- A JavaScript value: a primitive or a reference to a heap node. -/
inductive JVal where
  | prim (p : JPrim)
  | ref (a : Nat)
deriving DecidableEq, Repr

/-- A heap node: an array, a plain object (own enumerable fields in
insertion order), a `Date` (its time value) or a `RegExp` (its
`toString()` rendering). -/
inductive JNode where
  | arr (elems : List JVal)
  | obj (fields : List (String × JVal))
  | date (time : Int)
  | regexp (src : String)
deriving DecidableEq, Repr

/-- The heap: node at address `a` is the `a`-th entry.  A dangling address
reads as an empty object, which never arises for values built by the
embedding. -/
abbrev Heap := List JNode

def lookupNode (h : Heap) (a : Nat) : JNode := h.getD a (.obj [])

/-- JavaScript strict equality `===`.  `NaN` is not equal to anything,
references compare by identity. -/
def strictEq : JVal → JVal → Bool
  | .prim p, .prim q => if p = .nan ∨ q = .nan then false else p = q
  | .ref a, .ref b => a = b
  | _, _ => false

/-- JavaScript `Object.is`: like `===` except `Object.is(NaN, NaN)` is
true.  (The sign of zero is not modelled.) -/
def objectIs : JVal → JVal → Bool
  | .prim p, .prim q => p = q
  | .ref a, .ref b => a = b
  | _, _ => false

/-- `typeof v === 'string'`. -/
def isStrV : JVal → Bool
  | .prim (.str _) => true
  | _ => false

/-- `typeof v === 'number'` (this includes `NaN`). -/
def isNumV : JVal → Bool
  | .prim (.num _) => true
  | .prim .nan => true
  | _ => false

/-- `typeof v === 'boolean'`. -/
def isBoolV : JVal → Bool
  | .prim (.bool _) => true
  | _ => false

/-- `Number.isNaN(v)`. -/
def isNaNV : JVal → Bool
  | .prim .nan => true
  | _ => false

/-- JavaScript truthiness (`Boolean(v)`).  All heap references (objects,
arrays, dates, regexps) are truthy. -/
def truthy : JVal → Bool
  | .prim .undef => false
  | .prim .null => false
  | .prim (.bool b) => b
  | .prim (.num n) => !(n = 0)
  | .prim .nan => false
  | .prim (.str s) => !(s = "")
  | .ref _ => true

def digitsVal (cs : List Char) : Int :=
  cs.foldl (fun acc c => acc * 10 + (Int.ofNat (c.toNat - 48))) 0

/-- `Number(s)` for a string `s`, restricted to the integral numerals the
model supports: the empty string converts to `0`, an optional sign
followed by decimal digits converts to the denoted integer, anything else
is `NaN` (`none`). -/
def jsStringToNumber (s : String) : Option Int :=
  match s.toList with
  | [] => some 0
  | '-' :: rest =>
      if !rest.isEmpty ∧ rest.all Char.isDigit then some (-(digitsVal rest)) else none
  | '+' :: rest =>
      if !rest.isEmpty ∧ rest.all Char.isDigit then some (digitsVal rest) else none
  | cs =>
      if cs.all Char.isDigit then some (digitsVal cs) else none

/-- `Number(v)` for the values on which the source applies it (strings and
numbers); `none` is `NaN`. -/
def toNumber : JVal → Option Int
  | .prim (.num n) => some n
  | .prim (.str s) => jsStringToNumber s
  | _ => none

/-- `v instanceof Date`. -/
def isDateV (h : Heap) : JVal → Bool
  | .ref a => match lookupNode h a with | .date _ => true | _ => false
  | .prim _ => false

/-- `v instanceof RegExp`. -/
def isRegExpV (h : Heap) : JVal → Bool
  | .ref a => match lookupNode h a with | .regexp _ => true | _ => false
  | .prim _ => false

/-- `Array.isArray(v)`. -/
def isArrayV (h : Heap) : JVal → Bool
  | .ref a => match lookupNode h a with | .arr _ => true | _ => false
  | .prim _ => false

/-- `v.getTime()` for a date reference. -/
def dateTime (h : Heap) : JVal → Int
  | .ref a => match lookupNode h a with | .date t => t | _ => 0
  | .prim _ => 0

/-- `v.toString()` for a regexp reference. -/
def regexpSrc (h : Heap) : JVal → String
  | .ref a => match lookupNode h a with | .regexp s => s | _ => ""
  | .prim _ => ""

/-- The `isObject` helper of `src/main.ts`: `typeof value === 'object'`,
not `null`, not an array.  Note that dates and regexps count as objects. -/
def isObjectV (h : Heap) : JVal → Bool
  | .ref a => match lookupNode h a with | .arr _ => false | _ => true
  | .prim _ => false

/-- The `areValuesEqual` helper of `src/main.ts` (lines 54-99): the
equality primitive, with configurable strictness. -/
def areValuesEqual (h : Heap) (a b : JVal) (strict : Bool) : Bool :=
  if strictEq a b then true
  else if strict then false
  else if isNaNV a && isNaNV b then true
  else if (a = .prim .null ∧ b = .prim .undef) ∨ (a = .prim .undef ∧ b = .prim .null) then true
  else if (isStrV a || isStrV b) &&
          ((isStrV a && isNumV b) || (isNumV a && isStrV b)) &&
          (match toNumber a, toNumber b with
           | some x, some y => x = y
           | _, _ => false) then true
  else if (isBoolV a || isBoolV b) && (truthy a = truthy b) then true
  else if !truthy a || !truthy b then false
  else if isDateV h a && isDateV h b then dateTime h a = dateTime h b
  else if isRegExpV h a && isRegExpV h b then regexpSrc h a = regexpSrc h b
  else false

/-- Own enumerable keys (`Object.keys`). -/
def jsKeys (h : Heap) : JVal → List String
  | .ref a =>
      match lookupNode h a with
      | .obj fs => fs.map Prod.fst
      | .arr l => (List.range l.length).map (fun i => toString i)
      | _ => []
  | .prim _ => []

/-- Property access `v[k]` for a string key (absent keys read as
`undefined`). -/
def getProp (h : Heap) (v : JVal) (k : String) : JVal :=
  match v with
  | .ref a =>
      match lookupNode h a with
      | .obj fs =>
          match fs.find? (fun f => f.1 = k) with
          | some f => f.2
          | none => .prim .undef
      | _ => .prim .undef
  | .prim _ => (.prim .undef)

/-- Decimal parse of a string of digits (used for own index keys of
arrays; non-canonical numerals such as `"01"` are not distinguished). -/
def strToNatOwn (s : String) : Option Nat :=
  let cs := s.toList
  if !cs.isEmpty && cs.all Char.isDigit then
    some (cs.foldl (fun a c => a * 10 + (c.toNat - 48)) 0)
  else none

/-- The `hasOwn` helper (`Object.prototype.hasOwnProperty`). -/
def hasOwnV (h : Heap) (v : JVal) (k : String) : Bool :=
  match v with
  | .ref a =>
      match lookupNode h a with
      | .obj fs => fs.any (fun f => f.1 = k)
      | .arr l => match strToNatOwn k with
                  | some i => i < l.length
                  | none => false
      | _ => false
  | .prim _ => false

/-- Array element access `l[i]` (out of range reads as `undefined`). -/
def elemAt (l : List JVal) (i : Nat) : JVal := l.getD i (.prim .undef)

/-- Elements of an array reference. -/
def arrElems (h : Heap) : JVal → List JVal
  | .ref a => match lookupNode h a with | .arr l => l | _ => []
  | .prim _ => []

/-! ### String utilities (JavaScript `includes` / `endsWith` and the two
fixed regular expressions of the any-level pattern branch). -/

/-- `hay.includes(needle)` on character lists. -/
def listInfix (needle : List Char) : List Char → Bool
  | [] => needle.isEmpty
  | c :: rest => needle.isPrefixOf (c :: rest) || listInfix needle rest

/-- JavaScript `hay.includes(needle)`. -/
def strIncludes (hay needle : String) : Bool := listInfix needle.toList hay.toList

/-- JavaScript `hay.endsWith(needle)`. -/
def strEndsWith (hay needle : String) : Bool := needle.toList.isSuffixOf hay.toList

/-- Does the character list start with `[` digits `].` followed by
`name`?  This is the anchored-at-position reading of the regular
expression `\[\d+\]\.name` built by the any-level pattern branch (for a
literal `name`). -/
def idxDotNameAt (name : List Char) (cs : List Char) : Bool :=
  match cs with
  | c :: rest =>
      c = '[' &&
      (let ds := rest.takeWhile Char.isDigit
       !ds.isEmpty && (']' :: '.' :: name).isPrefixOf (rest.drop ds.length))
  | [] => false

/-- Unanchored search for `\[\d+\]\.name` (`path.match(...)` is a
search over the whole string). -/
def idxDotNameScan (name : List Char) : List Char → Bool
  | [] => false
  | c :: rest => idxDotNameAt name (c :: rest) || idxDotNameScan name rest

/-! ### A small matcher for the regular expressions the source builds
from `[*]` and `*` patterns.

The source compiles a pattern into a host regular expression in which the
only non-literal atoms are `\[\d+\]` (from `[*]`) and `[^.\[\]]*` (from a
bare `*`); every other character of the pattern is meant literally (dots
and brackets are escaped).  We model such a compiled expression as a
token list and implement full/prefix matching with backtracking.  A
pattern character that would reach the host compiler as a further
regular-expression metacharacter (so that the constructed expression is
invalid or means something beyond these two atom kinds) is treated as a
failed compilation, i.e. the corresponding branch does not match; the
source likewise skips the branch when `new RegExp` throws. -/

inductive RTok where
  | lit (c : Char)
  | digits
  | seg
deriving DecidableEq, Repr

/-- Characters a `*`-derived segment atom may consume (`[^.\[\]]`). -/
def segChar (c : Char) : Bool := !(c = '.' ∨ c = '[' ∨ c = ']')

def matchToksGo : Nat → Bool → List RTok → List Char → Bool
  | 0, _, _, _ => false
  | Nat.succ _, anchEnd, [], l => !anchEnd || l.isEmpty
  | Nat.succ fuel, anchEnd, .lit c :: ts, l =>
      match l with
      | [] => false
      | x :: l2 => x = c && matchToksGo fuel anchEnd ts l2
  | Nat.succ fuel, anchEnd, .digits :: ts, l =>
      match l with
      | [] => false
      | x :: l2 =>
          x.isDigit && (matchToksGo fuel anchEnd ts l2 ||
                        matchToksGo fuel anchEnd (.digits :: ts) l2)
  | Nat.succ fuel, anchEnd, .seg :: ts, l =>
      matchToksGo fuel anchEnd ts l ||
      (match l with
       | [] => false
       | x :: l2 => segChar x && matchToksGo fuel anchEnd (.seg :: ts) l2)

/-- Match a compiled token list against a string; `anchEnd` selects
whole-string matching (`^...$`) versus prefix matching (`^...`).  The
internal fuel strictly exceeds the maximal backtracking depth, so it
never runs out. -/
def matchToks (anchEnd : Bool) (ts : List RTok) (l : List Char) : Bool :=
  matchToksGo (ts.length + l.length + 1) anchEnd ts l

/-- Regular-expression metacharacters that survive the source's escaping
of a `[*]` pattern (`[*]` becomes `\[\d+\]`, `.` is escaped, everything
else is passed through raw). -/
def rawSpecialArr (c : Char) : Bool :=
  c = '*' ∨ c = '+' ∨ c = '?' ∨ c = '(' ∨ c = ')' ∨ c = '^' ∨ c = '$' ∨
  c = '|' ∨ c = '\\' ∨ c = '{' ∨ c = '}' ∨ c = '['

/-- Compile a `[*]` pattern (branch 3 of `matchesPathPattern`). -/
def compileArrayPattern : List Char → Option (List RTok)
  | [] => some []
  | '[' :: '*' :: ']' :: rest =>
      (compileArrayPattern rest).map (fun ts => .lit '[' :: .digits :: .lit ']' :: ts)
  | c :: rest =>
      if rawSpecialArr c then none
      else (compileArrayPattern rest).map (fun ts => .lit c :: ts)

/-- Metacharacters that survive the escaping of a `*` pattern (`.`,
`[`, `]` are escaped, `*` becomes the segment atom). -/
def rawSpecialSeg (c : Char) : Bool :=
  c = '+' ∨ c = '?' ∨ c = '(' ∨ c = ')' ∨ c = '^' ∨ c = '$' ∨
  c = '|' ∨ c = '\\' ∨ c = '{' ∨ c = '}'

/-- Compile a `*` pattern (branch 4 of `matchesPathPattern`, also used by
the include-mode prefix match of `shouldComparePath`). -/
def compileSegPattern : List Char → Option (List RTok)
  | [] => some []
  | '*' :: rest => (compileSegPattern rest).map (fun ts => .seg :: ts)
  | c :: rest =>
      if rawSpecialSeg c then none
      else (compileSegPattern rest).map (fun ts => .lit c :: ts)

/-! ### Path matching (`matchesPathPattern`, `shouldFilterPath`,
`shouldComparePath` of `src/main.ts`, duplicated in
`src/core/path-filtering.ts`). -/

/-- `s.startsWith(pre)` on the character lists (identical to the host
operation on the ASCII strings the library handles). -/
def startsWithStr (s pre : String) : Bool := pre.toList.isPrefixOf s.toList

/-- `s.substring(n)` / `s.drop n` on the character list. -/
def dropStr (s : String) (n : Nat) : String := String.mk (s.toList.drop n)

/-- JavaScript `path.split('.')` (on the character list). -/
def splitOnDot (l : List Char) : List (List Char) :=
  l.foldr (fun c acc =>
    match acc with
    | s :: rest => if c = '.' then [] :: s :: rest else (c :: s) :: rest
    | [] => [[c]]) [[]]

/-- String segments of `path.split('.')`. -/
def splitDot (s : String) : List String := (splitOnDot s.toList).map String.mk

/-- One iteration of the pattern loop of `matchesPathPattern`
(lines 168-226): does `path` match this single `pattern`? -/
def matchesOnePattern (path pattern : String) : Bool :=
  if startsWithStr pattern "." then
    let fieldName := dropStr pattern 1
    path = fieldName ||
    strEndsWith path ("." ++ fieldName) ||
    strIncludes path (fieldName ++ ".") ||
    idxDotNameScan fieldName.toList path.toList ||
    strIncludes path ("." ++ fieldName ++ "[")
  else if pattern = path then true
  else
    (strIncludes pattern "[*]" &&
      (match compileArrayPattern pattern.toList with
       | some ts => matchToks true ts path.toList
       | none => false)) ||
    (strIncludes pattern "*" &&
      (match compileSegPattern pattern.toList with
       | some ts => matchToks true ts path.toList
       | none => false)) ||
    startsWithStr path (pattern ++ "[") || startsWithStr path (pattern ++ ".")

/-- `matchesPathPattern` (lines 163-229): true if any pattern matches. -/
def matchesPathPattern (path : String) (patterns : List String) : Bool :=
  patterns.any (fun pattern => matchesOnePattern path pattern)

/-- Path filter mode. -/
inductive PathFilterMode where
  | includeMode
  | excludeMode
deriving DecidableEq, Repr

/-- The `pathFilter` option. -/
structure PathFilter where
  patterns : List String
  mode : PathFilterMode := .excludeMode
deriving DecidableEq, Repr

/-- The match of `^([^\[]+)(\[\d+\])(.*)$` used on a path segment by the
ancestor walk of `shouldFilterPath`: non-empty run up to the first `[`,
then `[` digits `]`, then the rest. -/
def parseArraySeg (cs : List Char) : Option (List Char × List Char × List Char) :=
  let before := cs.takeWhile (fun c => !(c = '['))
  if before.isEmpty then none
  else
    match cs.drop before.length with
    | '[' :: rest =>
        let ds := rest.takeWhile Char.isDigit
        if ds.isEmpty then none
        else
          match rest.drop ds.length with
          | ']' :: after => some (before, '[' :: (ds ++ [']']), after)
          | _ => none
    | _ => none

/-- `shouldFilterPath` (lines 240-296): the path itself, or one of the
ancestor prefixes reconstructed segment by segment, matches a pattern. -/
def shouldFilterPath (path : String) (pathFilter : Option PathFilter) : Bool :=
  match pathFilter with
  | none => false
  | some pf =>
    if pf.patterns.isEmpty then false
    else if matchesPathPattern path pf.patterns then true
    else
      let parts := splitDot path
      (parts.foldl (fun (st : String × Bool) part =>
        if st.2 then st
        else
          match parseArraySeg part.toList with
          | some (before, bracket, after) =>
              let cur1 := if st.1 = "" then String.mk before
                          else st.1 ++ "." ++ String.mk before
              if matchesPathPattern cur1 pf.patterns then (cur1, true)
              else
                let cur2 := cur1 ++ String.mk bracket
                let cur3 := if after.isEmpty then cur2 else cur2 ++ String.mk after
                (cur3, false)
          | none =>
              let cur := if st.1 = "" then part else st.1 ++ "." ++ part
              if matchesPathPattern cur pf.patterns then (cur, true) else (cur, false))
        ("", false)).2

/-- Global replacement of `\[\d+\]` by `[*]` (`path.replace(/\[\d+\]/g,
'[*]')`). -/
def replaceIdx (fuel : Nat) (cs : List Char) : List Char :=
  match fuel, cs with
  | 0, cs => cs
  | _ + 1, [] => []
  | fuel + 1, '[' :: rest =>
      let ds := rest.takeWhile Char.isDigit
      if !ds.isEmpty && (rest.drop ds.length).head? = some ']' then
        '[' :: '*' :: ']' :: replaceIdx fuel (rest.drop (ds.length + 1))
      else '[' :: replaceIdx fuel rest
  | fuel + 1, c :: rest => c :: replaceIdx fuel rest

/-- Length of a leading `[` digits `]` of `cs`, when present
(`path.match(/^\[\d+\]/)`). -/
def headIdxLen (cs : List Char) : Option Nat :=
  match cs with
  | '[' :: rest =>
      let ds := rest.takeWhile Char.isDigit
      if !ds.isEmpty && (rest.drop ds.length).head? = some ']' then some (ds.length + 2)
      else none
  | _ => none

/-- `shouldComparePath` (lines 305-391): whether a path participates in
the comparison under the given filter. -/
def shouldComparePath (path : String) (pathFilter : Option PathFilter) : Bool :=
  match pathFilter with
  | none => true
  | some pf =>
    if pf.patterns.isEmpty then true
    else
      match pf.mode with
      | .excludeMode => !shouldFilterPath path pathFilter
      | .includeMode =>
        if pf.patterns.contains path then true
        else if shouldFilterPath path pathFilter then true
        else
          (strIncludes path "[" &&
            (pf.patterns.contains (String.mk (replaceIdx (path.toList.length + 1) path.toList)) ||
             pf.patterns.any (fun pattern =>
               startsWithStr pattern "[*]" &&
               (match headIdxLen path.toList with
                | some n => dropStr pattern 3 = String.mk (path.toList.drop n)
                | none => false)))) ||
          (let parts := splitDot path
           (parts.foldl (fun (st : String × Nat × Bool) part =>
             match st with
             | (currentPath, i, found) =>
               if found then st
               else
                 let cur := if i > 0 then currentPath ++ "." ++ part else currentPath ++ part
                 if pf.patterns.contains (cur ++ ".*") then (cur, i + 1, true)
                 else if pf.patterns.any (fun pattern =>
                     strIncludes pattern "*" && !startsWithStr pattern "." &&
                     (match compileSegPattern pattern.toList with
                      | some ts => matchToks false ts path.toList
                      | none => false)) then (cur, i + 1, true)
                 else (cur, i + 1, false))
             ("", 0, false)).2.2)

/-! ### Options, results, visited ledgers. -/

/-- The `circularReferences` option. -/
inductive CircularHandling where
  | error
  | ignore
deriving DecidableEq, Repr

/-- `ComparisonOptions`, with the defaults resolved as the source
destructures them (`strict = true`, `circularReferences = 'error'`, no
path filter). -/
structure ComparisonOptions where
  strict : Bool := true
  circularReferences : CircularHandling := .error
  pathFilter : Option PathFilter := none
deriving DecidableEq, Repr

/-- Kind of a detailed difference. -/
inductive DiffType where
  | added
  | removed
  | changed
deriving DecidableEq, Repr

/-- A `DetailedDifference` record.  A JavaScript `undefined` field is the
`undefined` primitive. -/
structure DetailedDifference where
  path : String
  type : DiffType
  oldValue : JVal
  newValue : JVal
deriving DecidableEq, Repr

/-- An element of the list `handleDepthComparison` accumulates: a bare
conflict path (`detailed = false`) or a detailed record
(`detailed = true`). -/
inductive DItem where
  | path (p : String)
  | diff (d : DetailedDifference)
deriving DecidableEq, Repr

/-- The result union `string[] | DetailedDifference[] | boolean` of
`handleDepthComparison`. -/
inductive DeepResult where
  | bool (b : Bool)
  | items (l : List DItem)
deriving DecidableEq, Repr

/-- Errors: a `CircularReferenceError` carrying the path at which the
cycle was detected, or fuel exhaustion (a run that has not terminated
within the modelled depth). -/
inductive CmpError where
  | circular (path : String)
  | fuelExhausted
deriving DecidableEq, Repr

/-- A visited-node ledger (`Map<any, string>` keyed by reference
identity): addresses with the path at which they were first seen. -/
abbrev VMap := List (Nat × String)

def vmapGet (m : VMap) : JVal → Option String
  | .ref a => (m.find? (fun e => e.1 = a)).map (fun e => e.2)
  | .prim _ => none

def vmapSet (m : VMap) (v : JVal) (p : String) : VMap :=
  match v with
  | .ref a => (a, p) :: m
  | .prim _ => m

/-- Push a conflict: the path in path-list mode, the record in detailed
mode. -/
def pushItem (detailed : Bool) (p : String) (d : DetailedDifference)
    (acc : List DItem) : List DItem :=
  if detailed then acc ++ [.diff d] else acc ++ [.path p]

/-- Insertion-ordered union of key lists (the `new Set([...ks1, ...ks2])`
idiom): keep the first occurrence of each key. -/
def dedupKeepFirst (l : List String) : List String :=
  l.foldl (fun acc x => if acc.contains x then acc else acc ++ [x]) []

/-! ### The traversal engine `handleDepthComparison`
(`src/main.ts` lines 405-745).  The two per-branch loops are split into
top-level mutually recursive functions so that theorems can follow the
iteration structurally; they are verbatim the loop bodies of the source.
Fuel is consumed once per `handleDepthComparison` activation. -/

mutual

/-- `handleDepthComparison` (lines 405-745). -/
def handleDepthComparison (h : Heap) (fuel : Nat) (firstValue secondValue : JVal)
    (currentPath : String) (options : ComparisonOptions)
    (isArrayComparison : Bool) (detailed : Bool)
    (firstVisited secondVisited : VMap) : Except CmpError DeepResult :=
  match fuel with
  | 0 => .error .fuelExhausted
  | fuel + 1 =>
    if currentPath ≠ "" ∧ !shouldComparePath currentPath options.pathFilter then
      .ok (.bool true)
    else if isDateV h firstValue && isDateV h secondValue then
      if dateTime h firstValue = dateTime h secondValue then .ok (.bool true)
      else .ok (.items (pushItem detailed currentPath
        ⟨currentPath, .changed, firstValue, secondValue⟩ []))
    else if isRegExpV h firstValue && isRegExpV h secondValue then
      if regexpSrc h firstValue = regexpSrc h secondValue then .ok (.bool true)
      else .ok (.items (pushItem detailed currentPath
        ⟨currentPath, .changed, firstValue, secondValue⟩ []))
    else if isArrayV h firstValue && isArrayV h secondValue then
      match vmapGet firstVisited firstValue, vmapGet secondVisited secondValue with
      | none, none =>
        let fv := vmapSet firstVisited firstValue currentPath
        let sv := vmapSet secondVisited secondValue currentPath
        let l1 := arrElems h firstValue
        let l2 := arrElems h secondValue
        if l1.length ≠ l2.length then
          if isArrayComparison ∧ options.pathFilter.isSome ∧
              !shouldComparePath currentPath options.pathFilter then
            .ok (.bool true)
          else if isArrayComparison then .ok (.bool false)
          else .ok (.items (pushItem detailed currentPath
            ⟨currentPath, .changed, firstValue, secondValue⟩ []))
        else
          match arrayElemLoop h fuel ((l1.zip l2).enum) currentPath options detailed
              fv sv [] false with
          | .error e => .error e
          | .ok (conflicts, hasConflict) =>
              if isArrayComparison ∧ hasConflict ∧ conflicts.isEmpty then .ok (.bool false)
              else if !conflicts.isEmpty then .ok (.items conflicts) else .ok (.bool true)
      | fvp, svp =>
        if options.circularReferences = .error then .error (.circular currentPath)
        else if fvp.isSome && svp.isSome then .ok (.bool true)
        else .ok (.items (pushItem detailed currentPath
          ⟨currentPath, .changed, firstValue, secondValue⟩ []))
    else if isObjectV h firstValue && isObjectV h secondValue then
      match vmapGet firstVisited firstValue, vmapGet secondVisited secondValue with
      | none, none =>
        let fv := vmapSet firstVisited firstValue currentPath
        let sv := vmapSet secondVisited secondValue currentPath
        let allKeys := dedupKeepFirst (jsKeys h firstValue ++ jsKeys h secondValue)
        match objKeyLoop h fuel allKeys firstValue secondValue currentPath options detailed
            fv sv [] with
        | .error e => .error e
        | .ok conflicts =>
            if !conflicts.isEmpty then .ok (.items conflicts) else .ok (.bool true)
      | fvp, svp =>
        if options.circularReferences = .error then .error (.circular currentPath)
        else if fvp.isSome && svp.isSome then .ok (.bool true)
        else .ok (.items (pushItem detailed currentPath
          ⟨currentPath, .changed, firstValue, secondValue⟩ []))
    else
      if areValuesEqual h firstValue secondValue options.strict then .ok (.bool true)
      else .ok (.items (pushItem detailed currentPath
        ⟨currentPath, .changed, firstValue, secondValue⟩ []))

/-- The element loop of the sequence branch (lines 508-612), carrying the
accumulated conflicts and the `hasConflict` flag. -/
def arrayElemLoop (h : Heap) (fuel : Nat) (pairs : List (Nat × (JVal × JVal)))
    (currentPath : String) (options : ComparisonOptions) (detailed : Bool)
    (fv sv : VMap) (acc : List DItem) (hasConflict : Bool) :
    Except CmpError (List DItem × Bool) :=
  match fuel, pairs with
  | 0, _ => .error .fuelExhausted
  | _ + 1, [] => .ok (acc, hasConflict)
  | fuel + 1, (i, x, y) :: rest =>
    let elemPath := currentPath ++ "[" ++ toString i ++ "]"
    if !shouldComparePath elemPath options.pathFilter then
      arrayElemLoop h fuel rest currentPath options detailed fv sv acc hasConflict
    else if isObjectV h x && isObjectV h y then
      match handleDepthComparison h fuel x y elemPath options false detailed fv sv with
      | .error (.circular p) =>
          if options.circularReferences = .error then .error (.circular p)
          else arrayElemLoop h fuel rest currentPath options detailed fv sv acc hasConflict
      | .error e => .error e
      | .ok (.bool true) =>
          arrayElemLoop h fuel rest currentPath options detailed fv sv acc hasConflict
      | .ok (.bool false) =>
          arrayElemLoop h fuel rest currentPath options detailed fv sv acc true
      | .ok (.items l) =>
          arrayElemLoop h fuel rest currentPath options detailed fv sv (acc ++ l) true
    else if isArrayV h x && isArrayV h y then
      match handleDepthComparison h fuel x y elemPath options true detailed fv sv with
      | .error (.circular p) =>
          if options.circularReferences = .error then .error (.circular p)
          else arrayElemLoop h fuel rest currentPath options detailed fv sv acc hasConflict
      | .error e => .error e
      | .ok (.bool true) =>
          arrayElemLoop h fuel rest currentPath options detailed fv sv acc hasConflict
      | .ok (.bool false) =>
          arrayElemLoop h fuel rest currentPath options detailed fv sv
            (pushItem detailed elemPath ⟨elemPath, .changed, x, y⟩ acc) true
      | .ok (.items l) =>
          arrayElemLoop h fuel rest currentPath options detailed fv sv (acc ++ l) true
    else if !areValuesEqual h x y options.strict then
      arrayElemLoop h fuel rest currentPath options detailed fv sv
        (pushItem detailed elemPath ⟨elemPath, .changed, x, y⟩ acc) true
    else
      arrayElemLoop h fuel rest currentPath options detailed fv sv acc hasConflict

/-- The key loop of the mapping branch (lines 657-727). -/
def objKeyLoop (h : Heap) (fuel : Nat) (keys : List String)
    (firstValue secondValue : JVal) (currentPath : String)
    (options : ComparisonOptions) (detailed : Bool)
    (fv sv : VMap) (acc : List DItem) : Except CmpError (List DItem) :=
  match fuel, keys with
  | 0, _ => .error .fuelExhausted
  | _ + 1, [] => .ok acc
  | fuel + 1, key :: rest =>
    let hasFirst := hasOwnV h firstValue key
    let hasSecond := hasOwnV h secondValue key
    let propPath := if currentPath ≠ "" then currentPath ++ "." ++ key else key
    if !shouldComparePath propPath options.pathFilter then
      objKeyLoop h fuel rest firstValue secondValue currentPath options detailed fv sv acc
    else if !hasFirst || !hasSecond then
      let acc2 :=
        if detailed then
          acc ++ [.diff ⟨propPath, (if !hasFirst then .added else .removed),
                  (if !hasFirst then .prim .undef else getProp h firstValue key),
                  (if !hasSecond then .prim .undef else getProp h secondValue key)⟩]
        else acc ++ [.path propPath]
      objKeyLoop h fuel rest firstValue secondValue currentPath options detailed fv sv acc2
    else
      match handleDepthComparison h fuel (getProp h firstValue key)
          (getProp h secondValue key) propPath options false detailed fv sv with
      | .error (.circular p) =>
          if options.circularReferences = .error then .error (.circular p)
          else
            objKeyLoop h fuel rest firstValue secondValue currentPath options detailed fv sv
              (pushItem detailed propPath
                ⟨propPath, .changed, getProp h firstValue key, getProp h secondValue key⟩ acc)
      | .error e => .error e
      | .ok (.bool _) =>
          objKeyLoop h fuel rest firstValue secondValue currentPath options detailed fv sv acc
      | .ok (.items l) =>
          objKeyLoop h fuel rest firstValue secondValue currentPath options detailed fv sv
            (acc ++ l)

end

/-! ### Public operations (`src/main.ts` lines 124-150 and 755-1204) and
the package-root wrappers of `index.ts`. -/

/-- Result of `CompareProperties`. -/
structure ComparePropertiesResult where
  differences : List String
  common : List String
deriving DecidableEq, Repr

/-- `CompareProperties` (lines 124-150): one-level key-presence
comparison over the union of own keys. -/
def CompareProperties (h : Heap) (firstObject secondObject : JVal) :
    ComparePropertiesResult :=
  let allKeys := dedupKeepFirst (jsKeys h firstObject ++ jsKeys h secondObject)
  allKeys.foldl (fun acc key =>
    if hasOwnV h firstObject key && hasOwnV h secondObject key then
      { acc with common := acc.common ++ [key] }
    else
      { acc with differences := acc.differences ++ [key] })
    ⟨[], []⟩

/-- The top-level self-reference scan of `CompareArrays` (lines 774-787):
path `[i]` of the first element that is `===` the array itself. -/
def firstSelfRefIdx (root : JVal) (l : List JVal) : Option Nat :=
  l.findIdx? (fun e => strictEq e root)

/-- `CompareArrays` (lines 755-802). -/
def CompareArrays (h : Heap) (fuel : Nat) (firstArray secondArray : JVal)
    (options : ComparisonOptions := {}) : Except CmpError Bool :=
  if !isArrayV h firstArray || !isArrayV h secondArray then .ok false
  else if strictEq firstArray secondArray then .ok true
  else
    match (if options.circularReferences = .error then
             match firstSelfRefIdx firstArray (arrElems h firstArray) with
             | some i => some ("[" ++ toString i ++ "]")
             | none =>
               match firstSelfRefIdx secondArray (arrElems h secondArray) with
               | some i => some ("[" ++ toString i ++ "]")
               | none => none
           else none) with
    | some p => .error (.circular p)
    | none =>
      match handleDepthComparison h fuel firstArray secondArray "" options true false [] [] with
      | .ok (.bool true) => .ok true
      | .ok _ => .ok false
      | .error (.circular p) =>
          if options.circularReferences = .error then .error (.circular p) else .ok false
      | .error e => .error e

/-- The top-level `for (const key in o) if (o[key] === o) throw` scan of
the two object adapters (lines 829-842): first own enumerable key whose
value is the object itself. -/
def selfRefKeyScan (h : Heap) (v : JVal) : Option String :=
  match v with
  | .ref a =>
      match lookupNode h a with
      | .obj fs => (fs.find? (fun f => strictEq f.2 v)).map (fun f => f.1)
      | .arr l => (l.findIdx? (fun e => strictEq e v)).map (fun i => toString i)
      | _ => none
  | .prim _ => none

/-- Insertion-ordered set insertion (`Set.add` followed at the end by
`Array.from`). -/
def setAdd (l : List String) (x : String) : List String :=
  if l.contains x then l else l ++ [x]

/-- Whether the string contains a `[`. -/
def hasBracket (s : String) : Bool := s.toList.contains '['

/-- `conflict.substring(0, conflict.indexOf('['))`: the prefix before the
first `[`. -/
def truncateAtBracket (s : String) : String :=
  String.mk (s.toList.takeWhile (fun c => !(c = '[')))

/-- The post-processing loop of `CompareValuesWithConflicts`
(lines 855-880): re-filter each conflict, truncate bracketed paths to the
containing array property, deduplicate preserving first-occurrence
order. -/
def postProcessConflicts (stringConflicts : List String)
    (pathFilter : Option PathFilter) : List String :=
  stringConflicts.foldl (fun processed conflict =>
    if pathFilter.isSome && !shouldComparePath conflict pathFilter then processed
    else if hasBracket conflict then
      let arrayPath := truncateAtBracket conflict
      if pathFilter.isSome && !shouldComparePath arrayPath pathFilter then processed
      else setAdd processed arrayPath
    else setAdd processed conflict) []

/-- `CompareValuesWithConflicts` (lines 814-891). -/
def CompareValuesWithConflicts (h : Heap) (fuel : Nat)
    (firstObject secondObject : JVal) (pathOfConflict : String := "")
    (options : ComparisonOptions := {}) : Except CmpError (List String) :=
  if objectIs firstObject secondObject then .ok []
  else
    match (if options.circularReferences = .error then
             match selfRefKeyScan h firstObject with
             | some k => some k
             | none => selfRefKeyScan h secondObject
           else none) with
    | some k => .error (.circular k)
    | none =>
      match handleDepthComparison h fuel firstObject secondObject pathOfConflict options
          false false [] [] with
      | .ok (.bool _) => .ok []
      | .ok (.items l) =>
          let stringConflicts := l.filterMap (fun it =>
            match it with | .path p => some p | .diff _ => none)
          .ok (postProcessConflicts stringConflicts options.pathFilter)
      | .error (.circular p) =>
          if options.circularReferences = .error then .error (.circular p) else .ok []
      | .error e => .error e

/-- `typeof v === 'object' && v !== null` (true exactly for heap
references in the model). -/
def isRefV : JVal → Bool
  | .ref _ => true
  | .prim _ => false

/-- The special top-level block of the include-mode walk of
`CompareValuesWithDetailedDifferences` (lines 948-1061): both roots are
arrays and some pattern starts with `[`. -/
def topArrayBlock (h : Heap) (options : ComparisonOptions) (pf : PathFilter)
    (l1 l2 : List JVal) : List DetailedDifference :=
  (List.range (max l1.length l2.length)).foldl (fun acc i =>
    let elemPath := "[" ++ toString i ++ "]"
    if i ≥ l1.length then
      acc ++ pf.patterns.foldl (fun acc2 pattern =>
        if startsWithStr pattern "[*]" then
          let propPattern := dropStr pattern 3
          if propPattern ≠ "" then
            if isRefV (elemAt l2 i) then
              let propKey := if startsWithStr propPattern "." then dropStr propPattern 1
                             else propPattern
              if hasOwnV h (elemAt l2 i) propKey then
                acc2 ++ [⟨elemPath ++ propPattern, .added, .prim .undef,
                          getProp h (elemAt l2 i) propKey⟩]
              else acc2
            else acc2
          else acc2 ++ [⟨elemPath, .added, .prim .undef, elemAt l2 i⟩]
        else acc2) []
    else if i ≥ l2.length then
      acc ++ pf.patterns.foldl (fun acc2 pattern =>
        if startsWithStr pattern "[*]" then
          let propPattern := dropStr pattern 3
          if propPattern ≠ "" then
            if isRefV (elemAt l1 i) then
              let propKey := if startsWithStr propPattern "." then dropStr propPattern 1
                             else propPattern
              if hasOwnV h (elemAt l1 i) propKey then
                acc2 ++ [⟨elemPath ++ propPattern, .removed,
                          getProp h (elemAt l1 i) propKey, .prim .undef⟩]
              else acc2
            else acc2
          else acc2 ++ [⟨elemPath, .removed, elemAt l1 i, .prim .undef⟩]
        else acc2) []
    else
      acc ++ pf.patterns.foldl (fun acc2 pattern =>
        if startsWithStr pattern "[*]" then
          let propPattern := dropStr pattern 3
          if propPattern ≠ "" then
            let propKey := if startsWithStr propPattern "." then dropStr propPattern 1
                           else propPattern
            if isRefV (elemAt l1 i) && isRefV (elemAt l2 i) then
              if hasOwnV h (elemAt l1 i) propKey && hasOwnV h (elemAt l2 i) propKey then
                if !areValuesEqual h (getProp h (elemAt l1 i) propKey)
                    (getProp h (elemAt l2 i) propKey) options.strict then
                  acc2 ++ [⟨elemPath ++ propPattern, .changed,
                            getProp h (elemAt l1 i) propKey,
                            getProp h (elemAt l2 i) propKey⟩]
                else acc2
              else if hasOwnV h (elemAt l1 i) propKey then
                acc2 ++ [⟨elemPath ++ propPattern, .removed,
                          getProp h (elemAt l1 i) propKey, .prim .undef⟩]
              else if hasOwnV h (elemAt l2 i) propKey then
                acc2 ++ [⟨elemPath ++ propPattern, .added, .prim .undef,
                          getProp h (elemAt l2 i) propKey⟩]
              else acc2
            else acc2
          else
            if !areValuesEqual h (elemAt l1 i) (elemAt l2 i) options.strict then
              acc2 ++ [⟨elemPath, .changed, elemAt l1 i, elemAt l2 i⟩]
            else acc2
        else acc2) []) []

mutual

/-- The dedicated include-mode recursion `comparePropertiesRecursively`
of `CompareValuesWithDetailedDifferences` (lines 942-1160). -/
def includeWalk (h : Heap) (fuel : Nat) (options : ComparisonOptions) (pf : PathFilter)
    (first second : JVal) (currentPath : String) :
    Except CmpError (List DetailedDifference) :=
  match fuel with
  | 0 => .error .fuelExhausted
  | fuel + 1 =>
    let hasArrayPatterns := pf.patterns.any (fun p => startsWithStr p "[")
    if currentPath = "" ∧ isArrayV h first ∧ isArrayV h second ∧ hasArrayPatterns then
      .ok (topArrayBlock h options pf (arrElems h first) (arrElems h second))
    else if !shouldComparePath currentPath (some pf) ∧
        !pf.patterns.any (fun pattern =>
          startsWithStr pattern (currentPath ++ ".") ||
          (currentPath = "" && !startsWithStr pattern ".")) then
      .ok []
    else if !isRefV first || !isRefV second then
      if !areValuesEqual h first second options.strict then
        .ok [⟨currentPath, .changed, first, second⟩]
      else .ok []
    else if isArrayV h first && isArrayV h second then
      includeArrLoop h fuel options pf (arrElems h first) (arrElems h second)
        (List.range (max (arrElems h first).length (arrElems h second).length)) currentPath
    else
      includeKeyLoop h fuel options pf first second
        (dedupKeepFirst (jsKeys h first ++ jsKeys h second)) currentPath

/-- The array loop of the include-mode recursion (lines 1097-1127). -/
def includeArrLoop (h : Heap) (fuel : Nat) (options : ComparisonOptions) (pf : PathFilter)
    (l1 l2 : List JVal) (idxs : List Nat) (currentPath : String) :
    Except CmpError (List DetailedDifference) :=
  match fuel, idxs with
  | 0, _ => .error .fuelExhausted
  | _ + 1, [] => .ok []
  | fuel + 1, i :: rest =>
    let elemPath := currentPath ++ "[" ++ toString i ++ "]"
    match (if i ≥ l1.length then
             .ok (if shouldComparePath elemPath (some pf) then
                    [⟨elemPath, .added, .prim .undef, elemAt l2 i⟩]
                  else [])
           else if i ≥ l2.length then
             .ok (if shouldComparePath elemPath (some pf) then
                    [⟨elemPath, .removed, elemAt l1 i, .prim .undef⟩]
                  else [])
           else includeWalk h fuel options pf (elemAt l1 i) (elemAt l2 i) elemPath :
             Except CmpError (List DetailedDifference)) with
    | .error e => .error e
    | .ok ds =>
      match includeArrLoop h fuel options pf l1 l2 rest currentPath with
      | .error e => .error e
      | .ok rest2 => .ok (ds ++ rest2)

/-- The key loop of the include-mode recursion (lines 1130-1159). -/
def includeKeyLoop (h : Heap) (fuel : Nat) (options : ComparisonOptions) (pf : PathFilter)
    (first second : JVal) (keys : List String) (currentPath : String) :
    Except CmpError (List DetailedDifference) :=
  match fuel, keys with
  | 0, _ => .error .fuelExhausted
  | _ + 1, [] => .ok []
  | fuel + 1, key :: rest =>
    let propPath := if currentPath ≠ "" then currentPath ++ "." ++ key else key
    match (if !hasOwnV h first key then
             .ok (if shouldComparePath propPath (some pf) then
                    [⟨propPath, .added, .prim .undef, getProp h second key⟩]
                  else [])
           else if !hasOwnV h second key then
             .ok (if shouldComparePath propPath (some pf) then
                    [⟨propPath, .removed, getProp h first key, .prim .undef⟩]
                  else [])
           else includeWalk h fuel options pf (getProp h first key) (getProp h second key)
                  propPath :
             Except CmpError (List DetailedDifference)) with
    | .error e => .error e
    | .ok ds =>
      match includeKeyLoop h fuel options pf first second rest currentPath with
      | .error e => .error e
      | .ok rest2 => .ok (ds ++ rest2)

end

/-- `CompareValuesWithDetailedDifferences` (lines 903-1204). -/
def CompareValuesWithDetailedDifferences (h : Heap) (fuel : Nat)
    (firstObject secondObject : JVal) (pathOfConflict : String := "")
    (options : ComparisonOptions := {}) :
    Except CmpError (List DetailedDifference) :=
  if objectIs firstObject secondObject then .ok []
  else
    match (if options.circularReferences = .error then
             match selfRefKeyScan h firstObject with
             | some k => some k
             | none => selfRefKeyScan h secondObject
           else none) with
    | some k => .error (.circular k)
    | none =>
      match options.pathFilter with
      | some pf =>
        if pf.mode = .includeMode then
          includeWalk h fuel options pf firstObject secondObject pathOfConflict
        else
          match handleDepthComparison h fuel firstObject secondObject pathOfConflict options
              false true [] [] with
          | .ok (.bool _) => .ok []
          | .ok (.items l) =>
              let detailedDifferences := l.filterMap (fun it =>
                match it with | .diff d => some d | .path _ => none)
              .ok (if !pf.patterns.isEmpty then
                     detailedDifferences.filter (fun diff =>
                       !(diff.path = "") && !shouldFilterPath diff.path (some pf))
                   else detailedDifferences)
          | .error (.circular p) =>
              if options.circularReferences = .error then .error (.circular p) else .ok []
          | .error e => .error e
      | none =>
        match handleDepthComparison h fuel firstObject secondObject pathOfConflict options
            false true [] [] with
        | .ok (.bool _) => .ok []
        | .ok (.items l) =>
            .ok (l.filterMap (fun it =>
              match it with | .diff d => some d | .path _ => none))
        | .error (.circular p) =>
            if options.circularReferences = .error then .error (.circular p) else .ok []
        | .error e => .error e

/-- The package-root wrapper of `CompareValuesWithConflicts`
(`index.ts`): absent (falsy) roots short-circuit to `null` (`none`)
before the engine is invoked. -/
def indexCompareValuesWithConflicts (h : Heap) (fuel : Nat)
    (firstObject secondObject : JVal) (pathOfConflict : Option String)
    (options : ComparisonOptions) : Except CmpError (Option (List String)) :=
  if !truthy firstObject then .ok none
  else if !truthy secondObject then .ok none
  else
    (CompareValuesWithConflicts h fuel firstObject secondObject
      (pathOfConflict.getD "") options).map some

/-- The package-root wrapper of `CompareValuesWithDetailedDifferences`
(`index.ts`). -/
def indexCompareValuesWithDetailedDifferences (h : Heap) (fuel : Nat)
    (firstObject secondObject : JVal) (pathOfConflict : Option String)
    (options : ComparisonOptions) :
    Except CmpError (Option (List DetailedDifference)) :=
  if !truthy firstObject then .ok none
  else if !truthy secondObject then .ok none
  else
    (CompareValuesWithDetailedDifferences h fuel firstObject secondObject
      (pathOfConflict.getD "") options).map some

/-!
## Theorems

General lemmas about the embedding, followed by one theorem (and, where
required, a witness or counterexample) per specification claim.
-/

theorem objectIs_self (v : JVal) : objectIs v v = true := by
  cases v <;> simp [objectIs]

theorem strictEq_refl_ref (a : Nat) : strictEq (.ref a) (.ref a) = true := by
  simp [strictEq]

/-! ### C3: equality of the not-a-number sentinel. -/

/-- The heap used for concrete examples about scalars (empty: scalars
need no heap). -/
def emptyHeap : Heap := []

/-- C3, counterexample: the claim says `areValuesEqual(NaN, NaN, strict)`
is true for every `strict`, including `strict = true`; but under
`strict = true` the source falls back to host strict equality before the
not-a-number special case is consulted, and returns false. -/
theorem c3_counterexample :
    areValuesEqual emptyHeap (.prim .nan) (.prim .nan) true = false := by decide

/-- C3, amended: `areValuesEqual(NaN, NaN, strict)` returns true exactly
when `strict` is false; in strict mode the two not-a-number values are
reported unequal (the not-a-number special case only applies to the
non-strict mode). -/
theorem c3_nan_equal_iff_loose (h : Heap) (strict : Bool) :
    areValuesEqual h (.prim .nan) (.prim .nan) strict = !strict := by
  cases strict <;> simp [areValuesEqual, strictEq, isNaNV]

/-! ### C2: symmetric self-referential objects. -/

/-- Two distinct objects, each `{a: 1, b: 2, self: <itself>}`. -/
def c2Heap : Heap :=
  [.obj [("a", .prim (.num 1)), ("b", .prim (.num 2)), ("self", .ref 0)],
   .obj [("a", .prim (.num 1)), ("b", .prim (.num 2)), ("self", .ref 1)]]

/-- C2: with default options the comparison of the two self-referential
objects raises a Cycle Fault (`CircularReferenceError`, detected at key
`self`); with `circularReferences = 'ignore'` it returns the empty list
(the two symmetric cycles are treated as equal). -/
theorem c2_self_reference_cycle_fault :
    CompareValuesWithConflicts c2Heap 20 (.ref 0) (.ref 1) "" {} =
      .error (.circular "self") ∧
    CompareValuesWithConflicts c2Heap 20 (.ref 0) (.ref 1) ""
      { circularReferences := .ignore } = .ok [] := by
  exact ⟨rfl, rfl⟩

/-! ### C4: absent roots return `null`. -/

/-- C4: if either root passed to the public (package-root) operations is
absent (`null` or `undefined`), they return `null` (`none`) — neither a
list nor an error. -/
theorem c4_absent_root_returns_null (h : Heap) (fuel : Nat)
    (v1 v2 : JVal) (path : Option String) (options : ComparisonOptions)
    (habs : v1 = .prim .null ∨ v1 = .prim .undef ∨
            v2 = .prim .null ∨ v2 = .prim .undef) :
    indexCompareValuesWithConflicts h fuel v1 v2 path options = .ok none ∧
    indexCompareValuesWithDetailedDifferences h fuel v1 v2 path options = .ok none := by
  rcases habs with hv | hv | hv | hv <;> subst hv
  · exact ⟨rfl, rfl⟩
  · exact ⟨rfl, rfl⟩
  all_goals
    constructor <;>
    · simp only [indexCompareValuesWithConflicts,
        indexCompareValuesWithDetailedDifferences]
      cases hb : truthy v1 <;> simp [truthy, hb]

/-- C4, witness at a concrete input. -/
theorem c4_witness :
    indexCompareValuesWithConflicts emptyHeap 5 (.prim .null) (.prim .undef)
      none {} = .ok none ∧
    indexCompareValuesWithDetailedDifferences emptyHeap 5 (.prim .null)
      (.prim .undef) none {} = .ok none :=
  c4_absent_root_returns_null emptyHeap 5 (.prim .null) (.prim .undef) none {}
    (Or.inl rfl)

/-! ### C10: identity short-circuit bypasses cycle detection. -/

/-- C10: reference-identical inputs are answered before any cycle check:
for every value `v` — cyclic ones included — and arbitrary options,
`CompareValuesWithConflicts (v, v)` and
`CompareValuesWithDetailedDifferences (v, v)` return the empty list, and
`CompareArrays (a, a)` returns true for every array `a`; no Cycle Fault
is raised. -/
theorem c10_identity_short_circuit (h : Heap) (fuel : Nat)
    (v : JVal) (path : String) (options : ComparisonOptions)
    (a : Nat) (l : List JVal) (ha : lookupNode h a = .arr l) :
    CompareValuesWithConflicts h fuel v v path options = .ok [] ∧
    CompareValuesWithDetailedDifferences h fuel v v path options = .ok [] ∧
    CompareArrays h fuel (.ref a) (.ref a) options = .ok true := by
  refine ⟨?_, ?_, ?_⟩
  · simp [CompareValuesWithConflicts, objectIs_self]
  · simp [CompareValuesWithDetailedDifferences, objectIs_self]
  · simp [CompareArrays, isArrayV, ha, strictEq]

/-- C10, witness: a self-referential object and a self-referential array,
compared to themselves under the default (`'error'`) policy. -/
theorem c10_witness :
    CompareValuesWithConflicts [JNode.obj [("self", .ref 0)], JNode.arr [.ref 1]]
      10 (.ref 0) (.ref 0) "" {} = .ok [] ∧
    CompareValuesWithDetailedDifferences
      [JNode.obj [("self", .ref 0)], JNode.arr [.ref 1]]
      10 (.ref 0) (.ref 0) "" {} = .ok [] ∧
    CompareArrays [JNode.obj [("self", .ref 0)], JNode.arr [.ref 1]]
      10 (.ref 1) (.ref 1) {} = .ok true :=
  c10_identity_short_circuit
    [JNode.obj [("self", .ref 0)], JNode.arr [.ref 1]] 10 (.ref 0) "" {} 1
    [.ref 1] rfl

/-! ### C8: `CompareProperties`. -/

theorem mem_setFold (l : List String) :
    ∀ (acc : List String) (x : String),
      (x ∈ l.foldl (fun acc y => if acc.contains y then acc else acc ++ [y]) acc) ↔
        x ∈ acc ∨ x ∈ l := by
  induction l with
  | nil => simp
  | cons y l ih =>
      intro acc x
      rw [List.foldl_cons, ih]
      by_cases hy : acc.contains y
      · have hy' : y ∈ acc := by simpa using hy
        rw [if_pos hy]
        constructor
        · rintro (hx | hx)
          · exact Or.inl hx
          · exact Or.inr (List.mem_cons_of_mem _ hx)
        · rintro (hx | hx)
          · exact Or.inl hx
          · rcases List.mem_cons.mp hx with hx | hx
            · exact Or.inl (hx ▸ hy')
            · exact Or.inr hx
      · rw [if_neg hy]
        simp only [List.mem_append, List.mem_singleton, List.mem_cons]
        tauto

theorem mem_dedupKeepFirst (l : List String) (x : String) :
    x ∈ dedupKeepFirst l ↔ x ∈ l := by
  rw [dedupKeepFirst, mem_setFold]
  simp

theorem compareProperties_fold_mem (h : Heap) (o1 o2 : JVal) (keys : List String) :
    ∀ (acc : ComparePropertiesResult) (k : String),
      (k ∈ (keys.foldl (fun acc key =>
          if hasOwnV h o1 key && hasOwnV h o2 key then
            { acc with common := acc.common ++ [key] }
          else
            { acc with differences := acc.differences ++ [key] }) acc).common ↔
        k ∈ acc.common ∨ (k ∈ keys ∧ hasOwnV h o1 k ∧ hasOwnV h o2 k)) ∧
      (k ∈ (keys.foldl (fun acc key =>
          if hasOwnV h o1 key && hasOwnV h o2 key then
            { acc with common := acc.common ++ [key] }
          else
            { acc with differences := acc.differences ++ [key] }) acc).differences ↔
        k ∈ acc.differences ∨
          (k ∈ keys ∧ ¬(hasOwnV h o1 k = true ∧ hasOwnV h o2 k = true))) := by
  induction keys with
  | nil => simp
  | cons key keys ih =>
      intro acc k
      rw [List.foldl_cons]
      by_cases hk : hasOwnV h o1 key && hasOwnV h o2 key
      · rw [if_pos hk]
        rcases Bool.and_eq_true_iff.mp hk with ⟨hk1, hk2⟩
        constructor
        · rw [(ih _ k).1]
          simp only [List.mem_append, List.mem_singleton, List.mem_cons,
            List.not_mem_nil, or_false]
          constructor
          · rintro ((hx | hx) | ⟨hx, hx2⟩)
            · exact Or.inl hx
            · exact Or.inr ⟨Or.inl hx, hx ▸ hk1, hx ▸ hk2⟩
            · exact Or.inr ⟨Or.inr hx, hx2⟩
          · rintro (hx | ⟨hx | hx, hx2⟩)
            · exact Or.inl (Or.inl hx)
            · exact Or.inl (Or.inr hx)
            · exact Or.inr ⟨hx, hx2⟩
        · rw [(ih _ k).2]
          simp only [List.mem_cons]
          constructor
          · rintro (hx | ⟨hx, hx2⟩)
            · exact Or.inl hx
            · exact Or.inr ⟨Or.inr hx, hx2⟩
          · rintro (hx | ⟨hx | hx, hx2⟩)
            · exact Or.inl hx
            · exact absurd ⟨hx ▸ hk1, hx ▸ hk2⟩ hx2
            · exact Or.inr ⟨hx, hx2⟩
      · rw [if_neg hk]
        have hk' : ¬(hasOwnV h o1 key = true ∧ hasOwnV h o2 key = true) := by
          intro hcon
          exact hk (Bool.and_eq_true_iff.mpr hcon)
        constructor
        · rw [(ih _ k).1]
          simp only [List.mem_cons]
          constructor
          · rintro (hx | ⟨hx, hx1, hx2⟩)
            · exact Or.inl hx
            · exact Or.inr ⟨Or.inr hx, hx1, hx2⟩
          · rintro (hx | ⟨hx | hx, hx1, hx2⟩)
            · exact Or.inl hx
            · exact absurd ⟨hx ▸ hx1, hx ▸ hx2⟩ hk'
            · exact Or.inr ⟨hx, hx1, hx2⟩
        · rw [(ih _ k).2]
          simp only [List.mem_append, List.mem_singleton, List.mem_cons,
            List.not_mem_nil, or_false]
          constructor
          · rintro ((hx | hx) | ⟨hx, hx2⟩)
            · exact Or.inl hx
            · exact Or.inr ⟨Or.inl hx, hx ▸ hk'⟩
            · exact Or.inr ⟨Or.inr hx, hx2⟩
          · rintro (hx | ⟨hx | hx, hx2⟩)
            · exact Or.inl (Or.inl hx)
            · exact Or.inl (Or.inr hx)
            · exact Or.inr ⟨hx, hx2⟩

/-- The concrete heap of the `CompareProperties` example:
`{foo: 1, bar: 2}` at address 0 and `{foo: 2}` at address 1. -/
def cpExampleHeap : Heap :=
  [.obj [("foo", .prim (.num 1)), ("bar", .prim (.num 2))],
   .obj [("foo", .prim (.num 2))]]

/-- C8: `CompareProperties` is a one-level, key-presence-only comparison:
a key is in `common` iff it is an own key of both inputs, and in
`differences` iff it is an own key of exactly one; and concretely
`CompareProperties({foo:1,bar:2}, {foo:2})` returns
`{differences: ["bar"], common: ["foo"]}`. -/
theorem c8_compare_properties_spec :
    (∀ (h : Heap) (a1 a2 : Nat) (fs1 fs2 : List (String × JVal)),
      lookupNode h a1 = .obj fs1 → lookupNode h a2 = .obj fs2 →
      ∀ k : String,
        (k ∈ (CompareProperties h (.ref a1) (.ref a2)).common ↔
          k ∈ fs1.map Prod.fst ∧ k ∈ fs2.map Prod.fst) ∧
        (k ∈ (CompareProperties h (.ref a1) (.ref a2)).differences ↔
          ((k ∈ fs1.map Prod.fst ∨ k ∈ fs2.map Prod.fst) ∧
           ¬(k ∈ fs1.map Prod.fst ∧ k ∈ fs2.map Prod.fst)))) ∧
    CompareProperties cpExampleHeap (.ref 0) (.ref 1) =
      ⟨["bar"], ["foo"]⟩ := by
  constructor
  · intro h a1 a2 fs1 fs2 h1 h2 k
    have hown1 : hasOwnV h (.ref a1) k = true ↔ k ∈ fs1.map Prod.fst := by
      simp [hasOwnV, h1, List.any_eq_true, List.mem_map]
    have hown2 : hasOwnV h (.ref a2) k = true ↔ k ∈ fs2.map Prod.fst := by
      simp [hasOwnV, h2, List.any_eq_true, List.mem_map]
    have hkeys : jsKeys h (.ref a1) ++ jsKeys h (.ref a2) =
        fs1.map Prod.fst ++ fs2.map Prod.fst := by
      simp [jsKeys, h1, h2]
    have hmem := compareProperties_fold_mem h (.ref a1) (.ref a2)
      (dedupKeepFirst (jsKeys h (.ref a1) ++ jsKeys h (.ref a2))) ⟨[], []⟩ k
    constructor
    · rw [CompareProperties]
      rw [hmem.1]
      simp only [List.not_mem_nil, false_or, mem_dedupKeepFirst, hkeys,
        List.mem_append]
      rw [hown1, hown2]
      constructor
      · rintro ⟨_, hk1, hk2⟩; exact ⟨hk1, hk2⟩
      · rintro ⟨hk1, hk2⟩; exact ⟨Or.inl hk1, hk1, hk2⟩
    · rw [CompareProperties]
      rw [hmem.2]
      simp only [List.not_mem_nil, false_or, mem_dedupKeepFirst, hkeys,
        List.mem_append]
      rw [hown1, hown2]
  · rfl

/-- C8, witness at the concrete example. -/
theorem c8_witness :
    "foo" ∈ (CompareProperties cpExampleHeap (.ref 0) (.ref 1)).common ↔
      "foo" ∈ ([("foo", JVal.prim (.num 1)), ("bar", JVal.prim (.num 2))].map
          Prod.fst) ∧
      "foo" ∈ ([("foo", JVal.prim (.num 2))].map Prod.fst) :=
  (c8_compare_properties_spec.1 cpExampleHeap 0 1 _ _ rfl rfl "foo").1

/-! ### C1: the conflict-path list never contains `[` and is
deduplicated. -/

theorem mem_setAdd (l : List String) (x y : String) :
    x ∈ setAdd l y ↔ x ∈ l ∨ x = y := by
  rw [setAdd]
  by_cases hc : l.contains y
  · have hy : y ∈ l := by simpa using hc
    rw [if_pos hc]
    constructor
    · exact Or.inl
    · rintro (hx | hx)
      · exact hx
      · exact hx ▸ hy
  · rw [if_neg hc]
    simp [List.mem_append]

theorem nodup_setAdd (l : List String) (y : String) (hl : l.Nodup) :
    (setAdd l y).Nodup := by
  rw [setAdd]
  by_cases hc : l.contains y
  · rw [if_pos hc]; exact hl
  · rw [if_neg hc]
    have hy : y ∉ l := by simpa using hc
    simp [List.nodup_append, hl, hy]

theorem noBracket_setAdd (l : List String) (y : String)
    (hl : ∀ s ∈ l, '[' ∉ s.toList) (hy : '[' ∉ y.toList) :
    ∀ s ∈ setAdd l y, '[' ∉ s.toList := by
  intro s hs
  rcases (mem_setAdd l s y).mp hs with hs | hs
  · exact hl s hs
  · exact hs ▸ hy

theorem noBracket_truncateAtBracket (s : String) :
    '[' ∉ (truncateAtBracket s).toList := by
  intro hmem
  have : ('[' : Char) ∈ s.toList.takeWhile (fun c => !(c = '[')) := by
    simpa [truncateAtBracket] using hmem
  have := List.mem_takeWhile_imp this
  simp at this

theorem noBracket_of_hasBracket_false (s : String) (hs : hasBracket s = false) :
    '[' ∉ s.toList := by
  simpa [hasBracket] using hs

theorem postProcessConflicts_invariant (sc : List String)
    (pf : Option PathFilter) :
    (∀ s ∈ postProcessConflicts sc pf, '[' ∉ s.toList) ∧
      (postProcessConflicts sc pf).Nodup := by
  rw [postProcessConflicts]
  suffices haux : ∀ (sc : List String) (acc : List String),
      (∀ s ∈ acc, '[' ∉ s.toList) → acc.Nodup →
      (∀ s ∈ sc.foldl (fun processed conflict =>
        if pf.isSome && !shouldComparePath conflict pf then processed
        else if hasBracket conflict then
          let arrayPath := truncateAtBracket conflict
          if pf.isSome && !shouldComparePath arrayPath pf then processed
          else setAdd processed arrayPath
        else setAdd processed conflict) acc, '[' ∉ s.toList) ∧
      (sc.foldl (fun processed conflict =>
        if pf.isSome && !shouldComparePath conflict pf then processed
        else if hasBracket conflict then
          let arrayPath := truncateAtBracket conflict
          if pf.isSome && !shouldComparePath arrayPath pf then processed
          else setAdd processed arrayPath
        else setAdd processed conflict) acc).Nodup by
    exact haux sc [] (by simp) List.nodup_nil
  intro sc
  induction sc with
  | nil => intro acc h1 h2; exact ⟨h1, h2⟩
  | cons c rest ih =>
      intro acc h1 h2
      rw [List.foldl_cons]
      by_cases hskip : pf.isSome && !shouldComparePath c pf
      · rw [if_pos hskip]; exact ih acc h1 h2
      · rw [if_neg hskip]
        by_cases hbr : hasBracket c
        · rw [if_pos hbr]
          dsimp only
          by_cases hskip2 : pf.isSome && !shouldComparePath (truncateAtBracket c) pf
          · rw [if_pos hskip2]
            exact ih acc h1 h2
          · rw [if_neg hskip2]
            exact ih _ (noBracket_setAdd acc _ h1 (noBracket_truncateAtBracket c))
              (nodup_setAdd acc _ h2)
        · rw [if_neg hbr]
          exact ih _
            (noBracket_setAdd acc _ h1
              (noBracket_of_hasBracket_false c (by simpa using hbr)))
            (nodup_setAdd acc _ h2)

/-- C1: with the default starting path, every string in a list returned
by `CompareValuesWithConflicts` contains no `[` (per-index differences
are truncated to the containing array property's path, the prefix before
the first `[`), and the returned paths are deduplicated. -/
theorem c1_conflict_paths_bracket_free (h : Heap) (fuel : Nat) (a b : JVal)
    (options : ComparisonOptions) (l : List String)
    (hres : CompareValuesWithConflicts h fuel a b "" options = .ok l) :
    (∀ s ∈ l, '[' ∉ s.toList) ∧ l.Nodup := by
  rw [CompareValuesWithConflicts] at hres
  split at hres
  · cases hres
    exact ⟨by simp, List.nodup_nil⟩
  · split at hres
    · exact absurd hres (by simp)
    · split at hres
      · cases hres
        exact ⟨by simp, List.nodup_nil⟩
      · cases hres
        exact postProcessConflicts_invariant _ _
      · split at hres
        · exact absurd hres (by simp)
        · cases hres
          exact ⟨by simp, List.nodup_nil⟩
      · exact absurd hres (by simp)

/-- The heap of the C1 witness: `{arr: [1, 2]}` versus `{arr: [1, 3]}`
(an internal per-index conflict `arr[1]` that must be truncated). -/
def c1WitnessHeap : Heap :=
  [.obj [("arr", .ref 1)], .arr [.prim (.num 1), .prim (.num 2)],
   .obj [("arr", .ref 3)], .arr [.prim (.num 1), .prim (.num 3)]]

/-- C1, witness at a concrete input whose internal conflict is at an
array index. -/
theorem c1_witness :
    (∀ s ∈ (["arr"] : List String), '[' ∉ s.toList) ∧
      (["arr"] : List String).Nodup :=
  c1_conflict_paths_bracket_free c1WitnessHeap 20 (.ref 0) (.ref 2) {} ["arr"] rfl

/-! ### C9: the any-level (`.name`) pattern of the path matcher. -/

theorem listInfix_iff (n : List Char) :
    ∀ l, listInfix n l = true ↔ ∃ u v, l = u ++ n ++ v := by
  intro l
  induction l with
  | nil =>
      rw [listInfix]
      constructor
      · intro hn
        exact ⟨[], [], by simp [List.isEmpty_iff.mp hn]⟩
      · rintro ⟨u, v, huv⟩
        have : n = [] := by
          rcases List.append_eq_nil.mp ((List.append_eq_nil.mp huv.symm).1) with ⟨_, h2⟩
          exact h2
        simp [this]
  | cons c rest ih =>
      rw [listInfix]
      simp only [Bool.or_eq_true, ih]
      constructor
      · rintro (hpre | ⟨u, v, huv⟩)
        · rcases List.isPrefixOf_iff_prefix.mp hpre with ⟨t, ht⟩
          exact ⟨[], t, by simp [← ht]⟩
        · exact ⟨c :: u, v, by simp [huv]⟩
      · rintro ⟨u, v, huv⟩
        cases u with
        | nil =>
            left
            exact List.isPrefixOf_iff_prefix.mpr ⟨v, by simpa using huv.symm⟩
        | cons c' u' =>
            right
            rw [List.cons_append, List.cons_append] at huv
            injection huv with h1 h2
            exact ⟨u', v, h2⟩

theorem strIncludes_iff (hay needle : String) :
    strIncludes hay needle = true ↔
      ∃ u v, hay.toList = u ++ needle.toList ++ v := by
  rw [strIncludes, listInfix_iff]

theorem strEndsWith_iff (hay needle : String) :
    strEndsWith hay needle = true ↔ ∃ u, hay.toList = u ++ needle.toList := by
  rw [strEndsWith, List.isSuffixOf_iff_suffix]
  constructor
  · rintro ⟨t, ht⟩; exact ⟨t, ht.symm⟩
  · rintro ⟨u, hu⟩; exact ⟨u, hu.symm⟩

theorem drop_length_takeWhile (p : Char → Bool) :
    ∀ l : List Char, l.drop (l.takeWhile p).length = l.dropWhile p := by
  intro l
  induction l with
  | nil => rfl
  | cons c rest ih =>
      by_cases hc : p c
      · rw [List.takeWhile_cons_of_pos hc, List.dropWhile_cons_of_pos hc]
        simpa using ih
      · rw [List.takeWhile_cons_of_neg hc, List.dropWhile_cons_of_neg hc]
        rfl

theorem takeWhile_digits_append (ds : List Char) (hds : ds.all Char.isDigit)
    (x : Char) (hx : x.isDigit = false) (xs : List Char) :
    (ds ++ x :: xs).takeWhile Char.isDigit = ds := by
  induction ds with
  | nil =>
      simp only [List.nil_append]
      rw [List.takeWhile_cons_of_neg (by simp [hx])]
  | cons d ds ih =>
      rcases List.all_eq_true.mp hds d (by simp) with hd
      rw [List.cons_append, List.takeWhile_cons_of_pos hd]
      have := ih (by
        rcases List.all_eq_true.mp hds with _
        refine List.all_eq_true.mpr ?_
        intro a ha
        exact List.all_eq_true.mp hds a (by simp [ha]))
      rw [this]

theorem all_takeWhile (p : Char → Bool) (l : List Char) :
    (l.takeWhile p).all p = true :=
  List.all_eq_true.mpr (fun _ ha => List.mem_takeWhile_imp ha)

theorem idxDotNameAt_iff (name cs : List Char) :
    idxDotNameAt name cs = true ↔
      ∃ ds v, cs = '[' :: (ds ++ ']' :: '.' :: (name ++ v)) ∧
        ds ≠ [] ∧ ds.all Char.isDigit := by
  cases cs with
  | nil => simp [idxDotNameAt]
  | cons c rest =>
    by_cases hc : c = '['
    · subst hc
      have hdef : idxDotNameAt name ('[' :: rest) =
          (!(rest.takeWhile Char.isDigit).isEmpty &&
           (']' :: '.' :: name).isPrefixOf
             (rest.drop (rest.takeWhile Char.isDigit).length)) := by
        simp [idxDotNameAt]
      rw [hdef]
      simp only [Bool.and_eq_true, Bool.not_eq_true']
      constructor
      · rintro ⟨hne, hpre⟩
        rcases List.isPrefixOf_iff_prefix.mp hpre with ⟨t, ht⟩
        refine ⟨rest.takeWhile Char.isDigit, t, ?_, ?_, all_takeWhile _ _⟩
        · have hsplit := List.takeWhile_append_dropWhile (p := Char.isDigit) (l := rest)
          rw [drop_length_takeWhile] at ht
          rw [← ht] at hsplit
          simp only [List.cons_append] at hsplit
          exact congrArg (fun l => '[' :: l) hsplit.symm
        · intro hcon
          rw [hcon] at hne
          simp at hne
      · rintro ⟨ds, v, hcs, hne, hdig⟩
        injection hcs with _ hrest
        have htw : rest.takeWhile Char.isDigit = ds := by
          rw [hrest]
          exact takeWhile_digits_append ds hdig ']' (by decide) _
        constructor
        · rw [htw]; simpa using hne
        · rw [htw, hrest, List.drop_left]
          exact List.isPrefixOf_iff_prefix.mpr ⟨v, by simp⟩
    · have hdef : idxDotNameAt name (c :: rest) = false := by
        simp [idxDotNameAt, hc]
      rw [hdef]
      constructor
      · simp
      · rintro ⟨ds, v, hcs, _, _⟩
        injection hcs with h1 _
        exact absurd h1 hc

theorem idxDotNameScan_iff (name : List Char) :
    ∀ l, idxDotNameScan name l = true ↔
      ∃ u ds v, l = u ++ '[' :: (ds ++ ']' :: '.' :: (name ++ v)) ∧
        ds ≠ [] ∧ ds.all Char.isDigit := by
  intro l
  induction l with
  | nil =>
      rw [idxDotNameScan]
      simp
  | cons c rest ih =>
      rw [idxDotNameScan]
      simp only [Bool.or_eq_true, ih, idxDotNameAt_iff]
      constructor
      · rintro (⟨ds, v, hcs, hne, hdig⟩ | ⟨u, ds, v, hcs, hne, hdig⟩)
        · exact ⟨[], ds, v, by simp [hcs], hne, hdig⟩
        · exact ⟨c :: u, ds, v, by simp [hcs], hne, hdig⟩
      · rintro ⟨u, ds, v, hcs, hne, hdig⟩
        cases u with
        | nil =>
            left
            exact ⟨ds, v, by simpa using hcs, hne, hdig⟩
        | cons c' u' =>
            right
            rw [List.cons_append] at hcs
            injection hcs with _ h2
            exact ⟨u', ds, v, h2, hne, hdig⟩

/-- C9, counterexample: the claim's fifth condition says a path in which
the name is immediately followed by an opening bracket matches, with no
requirement of a preceding dot; but on `path = "name[0]"` with pattern
`".name"` the source's last check looks for the substring `".name["`
(the name must be preceded by a dot), and the function returns false even
though the path is the name immediately followed by `[`. -/
theorem c9_counterexample :
    matchesPathPattern "name[0]" [".name"] = false ∧
    ("name[0]").toList = ("name").toList ++ '[' :: ['0', ']'] := by
  exact ⟨by decide, by decide⟩

/-- C9, amended: for a bare `name` (non-empty, alphanumeric or `_`), the
pattern `"." ++ name` matches `path` iff `path` equals the name, or ends
with `.name`, or contains `name.`, or contains `[` digits `].name`, or
contains `.name[` — i.e. the final condition requires the name to be
preceded by a dot as well as followed by the bracket. -/
theorem c9_any_level_pattern (path name : String)
    (_hbare : name.toList ≠ [] ∧
      name.toList.all (fun c => c.isAlphanum || c = '_') = true) :
    matchesPathPattern path ["." ++ name] = true ↔
      (path = name ∨
       (∃ u, path.toList = u ++ '.' :: name.toList) ∨
       (∃ u v, path.toList = u ++ name.toList ++ '.' :: v) ∨
       (∃ u ds v, path.toList = u ++ '[' :: (ds ++ ']' :: '.' :: (name.toList ++ v)) ∧
         ds ≠ [] ∧ ds.all Char.isDigit) ∨
       (∃ u v, path.toList = u ++ '.' :: (name.toList ++ '[' :: v))) := by
  have hone : matchesPathPattern path ["." ++ name] =
      matchesOnePattern path ("." ++ name) := by
    simp [matchesPathPattern]
  have hdotname : ("." ++ name).toList = '.' :: name.toList := by
    have : (".").toList = ['.'] := by decide
    simp [String.toList, String.data_append]
  have hstart : startsWithStr ("." ++ name) "." = true := by
    rw [startsWithStr]
    rw [hdotname]
    simp [List.isPrefixOf]
  have hdrop : dropStr ("." ++ name) 1 = name := by
    rw [dropStr, hdotname]
    rfl
  rw [hone, matchesOnePattern, if_pos hstart]
  dsimp only
  rw [hdrop]
  simp only [Bool.or_eq_true, decide_eq_true_eq, strEndsWith_iff, strIncludes_iff,
    idxDotNameScan_iff, hdotname]
  have h1 : (∀ u : List Char, path.toList = u ++ '.' :: name.toList ↔
      path.toList = u ++ '.' :: name.toList) := fun _ => Iff.rfl
  have hnamedot : (name ++ ".").toList = name.toList ++ ['.'] := by
    have : (".").toList = ['.'] := by decide
    simp [String.toList, String.data_append]
  have hdotnamebr : ("." ++ name ++ "[").toList = '.' :: name.toList ++ ['['] := by
    have : ("[").toList = ['['] := by decide
    simp [String.toList, String.data_append]
  rw [hnamedot, hdotnamebr]
  have e3 : ∀ u v : List Char,
      (path.toList = u ++ (name.toList ++ ['.']) ++ v) ↔
        (path.toList = u ++ name.toList ++ '.' :: v) := by
    intro u v
    constructor <;> intro hp <;> simpa [List.append_assoc] using hp
  have e5 : ∀ u v : List Char,
      (path.toList = u ++ ('.' :: name.toList ++ ['[']) ++ v) ↔
        (path.toList = u ++ '.' :: (name.toList ++ '[' :: v)) := by
    intro u v
    constructor <;> intro hp <;> simpa [List.append_assoc] using hp
  simp only [e3, e5]
  constructor
  · rintro ((((hp | hp) | hp) | hp) | hp)
    exacts [Or.inl hp, Or.inr (Or.inl hp), Or.inr (Or.inr (Or.inl hp)),
      Or.inr (Or.inr (Or.inr (Or.inl hp))),
      Or.inr (Or.inr (Or.inr (Or.inr hp)))]
  · rintro (hp | hp | hp | hp | hp)
    exacts [Or.inl (Or.inl (Or.inl (Or.inl hp))),
      Or.inl (Or.inl (Or.inl (Or.inr hp))),
      Or.inl (Or.inl (Or.inr hp)), Or.inl (Or.inr hp), Or.inr hp]

/-- C9, witness: the amended characterisation at pattern `".name"` and
path `"a.name"`. -/
theorem c9_witness :
    matchesPathPattern "a.name" [".name"] = true ↔
      ("a.name" = "name" ∨
       (∃ u, ("a.name").toList = u ++ '.' :: ("name").toList) ∨
       (∃ u v, ("a.name").toList = u ++ ("name").toList ++ '.' :: v) ∨
       (∃ u ds v, ("a.name").toList =
          u ++ '[' :: (ds ++ ']' :: '.' :: (("name").toList ++ v)) ∧
         ds ≠ [] ∧ ds.all Char.isDigit) ∨
       (∃ u v, ("a.name").toList = u ++ '.' :: (("name").toList ++ '[' :: v))) :=
  c9_any_level_pattern "a.name" "name" ⟨by decide, by decide⟩

/-! ### C6: strict/loose monotonicity of the conflict set. -/

theorem pushItem_ne (detailed : Bool) (p : String) (d : DetailedDifference) :
    pushItem detailed p d [] ≠ [] := by
  cases detailed <;> simp [pushItem]

/-- With `isArrayComparison = false`, `handleDepthComparison` never
returns the boolean `false` (both boolean-false exits are guarded by
`isArrayComparison`). -/
theorem hdc_not_ok_false (h : Heap) (fuel : Nat) (a b : JVal) (path : String)
    (o : ComparisonOptions) (detailed : Bool) (v1 v2 : VMap) :
    handleDepthComparison h fuel a b path o false detailed v1 v2 ≠
      .ok (.bool false) := by
  intro hres
  cases fuel with
  | zero => simp [handleDepthComparison] at hres
  | succ f =>
      rw [handleDepthComparison] at hres
      iterate 16 all_goals ((try (dsimp only at hres)); (try (split at hres)))
      all_goals simp_all

/-- A non-boolean result of `handleDepthComparison` is never the empty
list (`conflicts.length > 0` guards every list return). -/
theorem hdc_items_ne (h : Heap) (fuel : Nat) (a b : JVal) (path : String)
    (o : ComparisonOptions) (isArr detailed : Bool) (v1 v2 : VMap)
    (l : List DItem)
    (hres : handleDepthComparison h fuel a b path o isArr detailed v1 v2 =
      .ok (.items l)) : l ≠ [] := by
  cases fuel with
  | zero => simp [handleDepthComparison] at hres
  | succ f =>
      rw [handleDepthComparison] at hres
      iterate 16 all_goals ((try (dsimp only at hres)); (try (split at hres)))
      all_goals
        first
        | (simp at hres; done)
        | (simp at hres; subst hres; exact pushItem_ne _ _ _)
        | (simp at hres; subst hres; simp_all)

/-- The per-element invariant of the sequence loop: once `hasConflict` is
set, the accumulated conflict list is non-empty (each `hasConflict`
assignment is paired with a push, except the one answering a nested
boolean result, which `hdc_not_ok_false` rules out). -/
theorem arrayElemLoop_hc_ne (h : Heap) : ∀ (fuel : Nat)
    (pairs : List (Nat × (JVal × JVal))) (path : String)
    (o : ComparisonOptions) (detailed : Bool) (fv sv : VMap)
    (acc : List DItem) (hc : Bool) (acc' : List DItem) (hc' : Bool),
    (hc = true → acc ≠ []) →
    arrayElemLoop h fuel pairs path o detailed fv sv acc hc = .ok (acc', hc') →
    hc' = true → acc' ≠ [] := by
  intro fuel
  induction fuel with
  | zero =>
      intro pairs path o detailed fv sv acc hc acc' hc' hinv hres
      simp [arrayElemLoop] at hres
  | succ f ih =>
      intro pairs path o detailed fv sv acc hc acc' hc' hinv hres
      cases pairs with
      | nil =>
          rw [arrayElemLoop] at hres
          simp at hres
          exact hres.1 ▸ hres.2 ▸ hinv
      | cons p rest =>
          obtain ⟨i, x, y⟩ := p
          rw [arrayElemLoop] at hres
          try dsimp only at hres
          split at hres
          · exact ih rest _ _ _ _ _ _ _ _ _ hinv hres
          · split at hres
            · -- isObject branch: match on recursive result
              split at hres
              · split at hres
                · simp at hres
                · exact ih rest _ _ _ _ _ _ _ _ _ hinv hres
              · simp at hres
              · exact ih rest _ _ _ _ _ _ _ _ _ hinv hres
              · exact absurd (by assumption) (hdc_not_ok_false h f x y _ o detailed fv sv)
              · refine ih rest _ _ _ _ _ _ _ _ _ ?_ hres
                intro _
                have hne := hdc_items_ne h f x y _ o false detailed fv sv _ (by assumption)
                simp [hne]
            · split at hres
              · split at hres
                · split at hres
                  · simp at hres
                  · exact ih rest _ _ _ _ _ _ _ _ _ hinv hres
                · simp at hres
                · exact ih rest _ _ _ _ _ _ _ _ _ hinv hres
                · refine ih rest _ _ _ _ _ _ _ _ _ ?_ hres
                  intro _
                  cases detailed <;> simp [pushItem]
                · refine ih rest _ _ _ _ _ _ _ _ _ ?_ hres
                  intro _
                  have hne := hdc_items_ne h f x y _ o true detailed fv sv _ (by assumption)
                  simp [hne]
              · split at hres
                · refine ih rest _ _ _ _ _ _ _ _ _ ?_ hres
                  intro _
                  cases detailed <;> simp [pushItem]
                · exact ih rest _ _ _ _ _ _ _ _ _ hinv hres
/-- Relation between a loose-mode (`strict = false`) and a strict-mode
result of `handleDepthComparison`: a strict boolean `true` forces a loose
`true`; a strict boolean `false` allows either boolean; a strict conflict
list dominates the loose result (which is `true` or a sublist). -/
def RelR : DeepResult → DeepResult → Prop
  | rL, .bool true => rL = .bool true
  | rL, .bool false => rL = .bool true ∨ rL = .bool false
  | rL, .items ls => rL = .bool true ∨ ∃ ll, rL = .items ll ∧ ll ⊆ ls

theorem RelR_refl (r : DeepResult) : RelR r r := by
  match r with
  | .bool true => rfl
  | .bool false => exact Or.inr rfl
  | .items l => exact Or.inr ⟨l, rfl, List.Subset.refl l⟩

/-- `RelR` lifted to outcomes: errors must agree exactly. -/
def OutRel : Except CmpError DeepResult → Except CmpError DeepResult → Prop
  | .error e, .error e' => e = e'
  | .ok rL, .ok rS => RelR rL rS
  | _, _ => False

/-- Relation between loose and strict states of the sequence loop. -/
def LoopRel : Except CmpError (List DItem × Bool) →
    Except CmpError (List DItem × Bool) → Prop
  | .error e, .error e' => e = e'
  | .ok (aL, hL), .ok (aS, hS) => aL ⊆ aS ∧ (hL = true → hS = true)
  | _, _ => False

/-- Relation between loose and strict states of the mapping-key loop. -/
def KeyRel : Except CmpError (List DItem) → Except CmpError (List DItem) → Prop
  | .error e, .error e' => e = e'
  | .ok aL, .ok aS => aL ⊆ aS
  | _, _ => False

/-- In strict mode the equality primitive reduces to `===`. -/
theorem aveq_strict_eq (h : Heap) (a b : JVal) :
    areValuesEqual h a b true = strictEq a b := by
  by_cases hse : strictEq a b = true <;> simp [areValuesEqual, hse]

/-- Strict equality implies loose equality (= loose inequality implies
strict inequality). -/
theorem aveq_strict_imp_loose (h : Heap) (a b : JVal)
    (hs : areValuesEqual h a b true = true) :
    areValuesEqual h a b false = true := by
  rw [aveq_strict_eq] at hs
  simp [areValuesEqual, hs]
theorem OutRel_ok_ok {rL rS : DeepResult} (hr : RelR rL rS) :
    OutRel (.ok rL) (.ok rS) := hr

theorem OutRel_err (e : CmpError) : OutRel (.error e) (.error e) := rfl

/-- Combining related loop states into related sequence-branch results. -/
theorem arrEndRel (isArr : Bool) (aL aS : List DItem) (hcL hcS : Bool)
    (hsub : aL ⊆ aS) (himp : hcL = true → hcS = true)
    (hLne : hcL = true → aL ≠ []) :
    OutRel
      (if isArr = true ∧ hcL = true ∧ aL.isEmpty = true then
        Except.ok (DeepResult.bool false)
      else if (!aL.isEmpty) = true then Except.ok (DeepResult.items aL)
      else Except.ok (DeepResult.bool true))
      (if isArr = true ∧ hcS = true ∧ aS.isEmpty = true then
        Except.ok (DeepResult.bool false)
      else if (!aS.isEmpty) = true then Except.ok (DeepResult.items aS)
      else Except.ok (DeepResult.bool true)) := by
  by_cases haL : aL = [] <;> by_cases haS : aS = [] <;>
    cases isArr <;> cases hcL <;> cases hcS <;>
    simp_all [OutRel, RelR, List.subset_nil]

theorem objEndRel (aL aS : List DItem) (hsub : aL ⊆ aS) :
    OutRel
      (if (!aL.isEmpty) = true then Except.ok (DeepResult.items aL)
       else Except.ok (DeepResult.bool true))
      (if (!aS.isEmpty) = true then Except.ok (DeepResult.items aS)
       else Except.ok (DeepResult.bool true)) := by
  by_cases haL : aL = [] <;> by_cases haS : aS = [] <;>
    simp_all [OutRel, RelR, List.subset_nil]

theorem pushItem_false (p : String) (d : DetailedDifference) (acc : List DItem) :
    pushItem false p d acc = acc ++ [.path p] := by
  simp [pushItem]

theorem mono_all (h : Heap) (circ : CircularHandling) (pf : Option PathFilter) :
    ∀ fuel : Nat,
      (∀ (a b : JVal) (path : String) (isArr : Bool) (v1 v2 : VMap),
        OutRel
          (handleDepthComparison h fuel a b path ⟨false, circ, pf⟩ isArr false v1 v2)
          (handleDepthComparison h fuel a b path ⟨true, circ, pf⟩ isArr false v1 v2)) ∧
      (∀ (pairs : List (Nat × (JVal × JVal))) (path : String) (fv sv : VMap)
          (accL accS : List DItem) (hcL hcS : Bool),
        accL ⊆ accS → (hcL = true → hcS = true) →
        LoopRel
          (arrayElemLoop h fuel pairs path ⟨false, circ, pf⟩ false fv sv accL hcL)
          (arrayElemLoop h fuel pairs path ⟨true, circ, pf⟩ false fv sv accS hcS)) ∧
      (∀ (keys : List String) (a b : JVal) (path : String) (fv sv : VMap)
          (accL accS : List DItem),
        accL ⊆ accS →
        KeyRel
          (objKeyLoop h fuel keys a b path ⟨false, circ, pf⟩ false fv sv accL)
          (objKeyLoop h fuel keys a b path ⟨true, circ, pf⟩ false fv sv accS)) := by
  intro fuel
  induction fuel with
  | zero =>
      refine ⟨?_, ?_, ?_⟩
      · intro a b path isArr v1 v2
        simp [handleDepthComparison, OutRel]
      · intro pairs path fv sv accL accS hcL hcS hsub himp
        simp [arrayElemLoop, LoopRel]
      · intro keys a b path fv sv accL accS hsub
        simp [objKeyLoop, KeyRel]
  | succ f ih =>
      refine ⟨?_, ?_, ?_⟩
      · intro a b path isArr v1 v2
        rw [handleDepthComparison, handleDepthComparison]
        dsimp only
        split
        · exact OutRel_ok_ok (RelR_refl _)
        · split
          · -- both dates
            split
            · exact OutRel_ok_ok (RelR_refl _)
            · exact OutRel_ok_ok (RelR_refl _)
          · split
            · -- both regexps
              split
              · exact OutRel_ok_ok (RelR_refl _)
              · exact OutRel_ok_ok (RelR_refl _)
            · split
              · -- both arrays
                cases hv1 : vmapGet v1 a with
                | some p1 =>
                    cases hv2 : vmapGet v2 b <;>
                    · dsimp only
                      split
                      · exact OutRel_err _
                      · split
                        · exact OutRel_ok_ok (RelR_refl _)
                        · exact OutRel_ok_ok (RelR_refl _)
                | none =>
                    cases hv2 : vmapGet v2 b with
                    | some p2 =>
                        dsimp only
                        split
                        · exact OutRel_err _
                        · split
                          · exact OutRel_ok_ok (RelR_refl _)
                          · exact OutRel_ok_ok (RelR_refl _)
                    | none =>
                        dsimp only
                        split
                        · -- length mismatch
                          split
                          · exact OutRel_ok_ok (RelR_refl _)
                          · split
                            · exact OutRel_ok_ok (RelR_refl _)
                            · exact OutRel_ok_ok (RelR_refl _)
                        · -- element loop
                          have hrel := ih.2.1 ((arrElems h a).zip (arrElems h b)).enum
                            path (vmapSet v1 a path) (vmapSet v2 b path) [] []
                            false false (by simp) (fun hx => hx)
                          cases eL : arrayElemLoop h f ((arrElems h a).zip (arrElems h b)).enum
                              path ⟨false, circ, pf⟩ false (vmapSet v1 a path)
                              (vmapSet v2 b path) [] false with
                          | error e1 =>
                              cases eS : arrayElemLoop h f ((arrElems h a).zip (arrElems h b)).enum
                                  path ⟨true, circ, pf⟩ false (vmapSet v1 a path)
                                  (vmapSet v2 b path) [] false with
                              | error e2 =>
                                  rw [eL, eS] at hrel
                                  try simp only [eL, eS]
                                  cases hrel
                                  exact OutRel_err _
                              | ok pS =>
                                  rw [eL, eS] at hrel
                                  exact absurd hrel (by simp [LoopRel])
                          | ok pL =>
                              obtain ⟨aL, hcL⟩ := pL
                              cases eS : arrayElemLoop h f ((arrElems h a).zip (arrElems h b)).enum
                                  path ⟨true, circ, pf⟩ false (vmapSet v1 a path)
                                  (vmapSet v2 b path) [] false with
                              | error e2 =>
                                  rw [eL, eS] at hrel
                                  exact absurd hrel (by simp [LoopRel])
                              | ok pS =>
                                  obtain ⟨aS, hcS⟩ := pS
                                  rw [eL, eS] at hrel
                                  obtain ⟨hsub, himp⟩ := hrel
                                  try simp only [eL, eS]
                                  have hLne : hcL = true → aL ≠ [] :=
                                    arrayElemLoop_hc_ne h f _ path _ false _ _ [] false
                                      _ _ (by simp) eL
                                  exact arrEndRel isArr aL aS hcL hcS hsub himp hLne
              · split
                · -- both objects
                  cases hv1 : vmapGet v1 a with
                  | some p1 =>
                      cases hv2 : vmapGet v2 b <;>
                      · dsimp only
                        split
                        · exact OutRel_err _
                        · split
                          · exact OutRel_ok_ok (RelR_refl _)
                          · exact OutRel_ok_ok (RelR_refl _)
                  | none =>
                      cases hv2 : vmapGet v2 b with
                      | some p2 =>
                          dsimp only
                          split
                          · exact OutRel_err _
                          · split
                            · exact OutRel_ok_ok (RelR_refl _)
                            · exact OutRel_ok_ok (RelR_refl _)
                      | none =>
                          dsimp only
                          have hrel := ih.2.2
                            (dedupKeepFirst (jsKeys h a ++ jsKeys h b)) a b path
                            (vmapSet v1 a path) (vmapSet v2 b path) [] [] (by simp)
                          cases eL : objKeyLoop h f
                              (dedupKeepFirst (jsKeys h a ++ jsKeys h b)) a b path
                              ⟨false, circ, pf⟩ false (vmapSet v1 a path)
                              (vmapSet v2 b path) [] with
                          | error e1 =>
                              cases eS : objKeyLoop h f
                                  (dedupKeepFirst (jsKeys h a ++ jsKeys h b)) a b path
                                  ⟨true, circ, pf⟩ false (vmapSet v1 a path)
                                  (vmapSet v2 b path) [] with
                              | error e2 =>
                                  rw [eL, eS] at hrel
                                  try simp only [eL, eS]
                                  cases hrel
                                  exact OutRel_err _
                              | ok aS =>
                                  rw [eL, eS] at hrel
                                  exact absurd hrel (by simp [KeyRel])
                          | ok aL =>
                              cases eS : objKeyLoop h f
                                  (dedupKeepFirst (jsKeys h a ++ jsKeys h b)) a b path
                                  ⟨true, circ, pf⟩ false (vmapSet v1 a path)
                                  (vmapSet v2 b path) [] with
                              | error e2 =>
                                  rw [eL, eS] at hrel
                                  exact absurd hrel (by simp [KeyRel])
                              | ok aS =>
                                  rw [eL, eS] at hrel
                                  try simp only [eL, eS]
                                  exact objEndRel aL aS hrel
                · -- primitives / mismatched classifications
                  by_cases hS : areValuesEqual h a b true = true
                  · have hL := aveq_strict_imp_loose h a b hS
                    rw [if_pos hL, if_pos hS]
                    exact OutRel_ok_ok (RelR_refl _)
                  · by_cases hL : areValuesEqual h a b false = true
                    · rw [if_pos hL, if_neg hS]
                      exact OutRel_ok_ok (Or.inl rfl)
                    · rw [if_neg hL, if_neg hS]
                      exact OutRel_ok_ok (RelR_refl _)
      · intro pairs path fv sv accL accS hcL hcS hsub himp
        cases pairs with
        | nil =>
            rw [arrayElemLoop, arrayElemLoop]
            exact ⟨hsub, himp⟩
        | cons p rest =>
            obtain ⟨i, x, y⟩ := p
            rw [arrayElemLoop, arrayElemLoop]
            dsimp only
            split
            · exact ih.2.1 rest path fv sv accL accS hcL hcS hsub himp
            · split
              · -- object elements
                have hrel := ih.1 x y (path ++ "[" ++ toString i ++ "]") false fv sv
                cases eL : handleDepthComparison h f x y
                    (path ++ "[" ++ toString i ++ "]") ⟨false, circ, pf⟩ false false
                    fv sv with
                | error e1 =>
                    cases eS : handleDepthComparison h f x y
                        (path ++ "[" ++ toString i ++ "]") ⟨true, circ, pf⟩ false false
                        fv sv with
                    | error e2 =>
                        rw [eL, eS] at hrel
                        cases hrel
                        try simp only [eL, eS]
                        cases e1 with
                        | circular p =>
                            dsimp only
                            split
                            · rfl
                            · exact ih.2.1 rest path fv sv accL accS hcL hcS hsub himp
                        | fuelExhausted => rfl
                    | ok rS =>
                        rw [eL, eS] at hrel
                        exact absurd hrel (by simp [OutRel])
                | ok rL =>
                    cases eS : handleDepthComparison h f x y
                        (path ++ "[" ++ toString i ++ "]") ⟨true, circ, pf⟩ false false
                        fv sv with
                    | error e2 =>
                        rw [eL, eS] at hrel
                        exact absurd hrel (by simp [OutRel])
                    | ok rS =>
                        rw [eL, eS] at hrel
                        try simp only [eL, eS]
                        cases rS with
                        | bool bS =>
                            cases bS with
                            | false =>
                                rcases hrel with hrl | hrl <;> subst hrl <;> try dsimp only
                                · exact ih.2.1 rest path fv sv accL accS hcL true hsub
                                    (fun _ => rfl)
                                · exact ih.2.1 rest path fv sv accL accS true true hsub
                                    (fun _ => rfl)
                            | true =>
                                have hrl : rL = DeepResult.bool true := hrel
                                subst hrl
                                dsimp only
                                exact ih.2.1 rest path fv sv accL accS hcL hcS hsub himp
                        | items ls =>
                            rcases hrel with hrl | ⟨ll, hrl, hlls⟩ <;> subst hrl <;> try dsimp only
                            · exact ih.2.1 rest path fv sv accL (accS ++ ls) hcL true
                                (hsub.trans (List.subset_append_left _ _)) (fun _ => rfl)
                            · exact ih.2.1 rest path fv sv (accL ++ ll) (accS ++ ls) true true
                                (List.append_subset.mpr
                                  ⟨hsub.trans (List.subset_append_left _ _),
                                   hlls.trans (List.subset_append_right _ _)⟩)
                                (fun _ => rfl)
              · split
                · -- array elements
                  have hrel := ih.1 x y (path ++ "[" ++ toString i ++ "]") true fv sv
                  cases eL : handleDepthComparison h f x y
                      (path ++ "[" ++ toString i ++ "]") ⟨false, circ, pf⟩ true false
                      fv sv with
                  | error e1 =>
                      cases eS : handleDepthComparison h f x y
                          (path ++ "[" ++ toString i ++ "]") ⟨true, circ, pf⟩ true false
                          fv sv with
                      | error e2 =>
                          rw [eL, eS] at hrel
                          cases hrel
                          try simp only [eL, eS]
                          cases e1 with
                          | circular p =>
                              dsimp only
                              split
                              · rfl
                              · exact ih.2.1 rest path fv sv accL accS hcL hcS hsub himp
                          | fuelExhausted => rfl
                      | ok rS =>
                          rw [eL, eS] at hrel
                          exact absurd hrel (by simp [OutRel])
                  | ok rL =>
                      cases eS : handleDepthComparison h f x y
                          (path ++ "[" ++ toString i ++ "]") ⟨true, circ, pf⟩ true false
                          fv sv with
                      | error e2 =>
                          rw [eL, eS] at hrel
                          exact absurd hrel (by simp [OutRel])
                      | ok rS =>
                          rw [eL, eS] at hrel
                          try simp only [eL, eS]
                          cases rS with
                          | bool bS =>
                              cases bS with
                              | false =>
                                  rcases hrel with hrl | hrl <;> subst hrl <;> try dsimp only
                                  · rw [pushItem_false]
                                    exact ih.2.1 rest path fv sv accL
                                      (accS ++ [.path (path ++ "[" ++ toString i ++ "]")])
                                      hcL true
                                      (hsub.trans (List.subset_append_left _ _))
                                      (fun _ => rfl)
                                  · rw [pushItem_false, pushItem_false]
                                    exact ih.2.1 rest path fv sv
                                      (accL ++ [.path (path ++ "[" ++ toString i ++ "]")])
                                      (accS ++ [.path (path ++ "[" ++ toString i ++ "]")])
                                      true true
                                      (List.append_subset.mpr
                                        ⟨hsub.trans (List.subset_append_left _ _),
                                         List.subset_append_right _ _⟩)
                                      (fun _ => rfl)
                              | true =>
                                  have hrl : rL = DeepResult.bool true := hrel
                                  subst hrl
                                  dsimp only
                                  exact ih.2.1 rest path fv sv accL accS hcL hcS hsub himp
                          | items ls =>
                              rcases hrel with hrl | ⟨ll, hrl, hlls⟩ <;> subst hrl <;> try dsimp only
                              · exact ih.2.1 rest path fv sv accL (accS ++ ls) hcL true
                                  (hsub.trans (List.subset_append_left _ _)) (fun _ => rfl)
                              · exact ih.2.1 rest path fv sv (accL ++ ll) (accS ++ ls) true true
                                  (List.append_subset.mpr
                                    ⟨hsub.trans (List.subset_append_left _ _),
                                     hlls.trans (List.subset_append_right _ _)⟩)
                                  (fun _ => rfl)
                · -- primitive elements
                  by_cases hS : areValuesEqual h x y true = true
                  · have hLq := aveq_strict_imp_loose h x y hS
                    rw [if_neg (by simp [hLq]), if_neg (by simp [hS])]
                    exact ih.2.1 rest path fv sv accL accS hcL hcS hsub himp
                  · have hS' : areValuesEqual h x y true = false := by
                      cases hb : areValuesEqual h x y true
                      · rfl
                      · exact absurd hb hS
                    by_cases hLq : areValuesEqual h x y false = true
                    · rw [if_neg (by simp [hLq]), if_pos (by simp [hS'])]
                      rw [pushItem_false]
                      exact ih.2.1 rest path fv sv accL
                        (accS ++ [.path (path ++ "[" ++ toString i ++ "]")]) hcL true
                        (hsub.trans (List.subset_append_left _ _)) (fun _ => rfl)
                    · have hL' : areValuesEqual h x y false = false := by
                        cases hb : areValuesEqual h x y false
                        · rfl
                        · exact absurd hb hLq
                      rw [if_pos (by simp [hL']), if_pos (by simp [hS'])]
                      rw [pushItem_false, pushItem_false]
                      exact ih.2.1 rest path fv sv
                        (accL ++ [.path (path ++ "[" ++ toString i ++ "]")])
                        (accS ++ [.path (path ++ "[" ++ toString i ++ "]")]) true true
                        (List.append_subset.mpr
                          ⟨hsub.trans (List.subset_append_left _ _),
                           List.subset_append_right _ _⟩)
                        (fun _ => rfl)
      · intro keys a b path fv sv accL accS hsub
        cases keys with
        | nil =>
            rw [objKeyLoop, objKeyLoop]
            exact hsub
        | cons key rest =>
            rw [objKeyLoop, objKeyLoop]
            dsimp only
            generalize (if path ≠ "" then path ++ "." ++ key else key) = pp
            split
            · exact ih.2.2 rest a b path fv sv accL accS hsub
            · split
              · refine ih.2.2 rest a b path fv sv _ _ ?_
                simp only [Bool.false_eq_true, if_false]
                exact List.append_subset.mpr
                  ⟨hsub.trans (List.subset_append_left _ _),
                   List.subset_append_right _ _⟩
              · have hrel := ih.1 (getProp h a key) (getProp h b key)
                  pp false fv sv
                cases eL : handleDepthComparison h f (getProp h a key) (getProp h b key)
                    pp ⟨false, circ, pf⟩
                    false false fv sv with
                | error e1 =>
                    cases eS : handleDepthComparison h f (getProp h a key) (getProp h b key)
                        pp ⟨true, circ, pf⟩
                        false false fv sv with
                    | error e2 =>
                        rw [eL, eS] at hrel
                        cases hrel
                        try simp only [eL, eS]
                        cases e1 with
                        | circular p =>
                            dsimp only
                            split
                            · rfl
                            · rw [pushItem_false, pushItem_false]
                              exact ih.2.2 rest a b path fv sv _ _
                                (List.append_subset.mpr
                                  ⟨hsub.trans (List.subset_append_left _ _),
                                   List.subset_append_right _ _⟩)
                        | fuelExhausted => rfl
                    | ok rS =>
                        rw [eL, eS] at hrel
                        exact absurd hrel (by simp [OutRel])
                | ok rL =>
                    cases eS : handleDepthComparison h f (getProp h a key) (getProp h b key)
                        pp ⟨true, circ, pf⟩
                        false false fv sv with
                    | error e2 =>
                        rw [eL, eS] at hrel
                        exact absurd hrel (by simp [OutRel])
                    | ok rS =>
                        rw [eL, eS] at hrel
                        try simp only [eL, eS]
                        cases rS with
                        | bool bS =>
                            cases bS with
                            | false =>
                                rcases hrel with hrl | hrl <;> subst hrl <;>
                                  exact ih.2.2 rest a b path fv sv accL accS hsub
                            | true =>
                                have hrl : rL = DeepResult.bool true := hrel
                                subst hrl
                                exact ih.2.2 rest a b path fv sv accL accS hsub
                        | items ls =>
                            rcases hrel with hrl | ⟨ll, hrl, hlls⟩ <;> subst hrl
                            · exact ih.2.2 rest a b path fv sv accL (accS ++ ls)
                                (hsub.trans (List.subset_append_left _ _))
                            · exact ih.2.2 rest a b path fv sv (accL ++ ll) (accS ++ ls)
                                (List.append_subset.mpr
                                  ⟨hsub.trans (List.subset_append_left _ _),
                                   hlls.trans (List.subset_append_right _ _)⟩)
/-- Paths returned by a conflict-list outcome (a raised fault returns no
paths). -/
def okPaths : Except CmpError (List String) → List String
  | .ok l => l
  | .error _ => []

/-- The decision of the post-processing loop for one conflict string. -/
def ppKeep (pfo : Option PathFilter) (c : String) : Bool :=
  if pfo.isSome && !shouldComparePath c pfo then false
  else if hasBracket c then !(pfo.isSome && !shouldComparePath (truncateAtBracket c) pfo)
  else true

/-- The path the post-processing loop records for one conflict string. -/
def ppProj (c : String) : String :=
  if hasBracket c then truncateAtBracket c else c

theorem ppStep_eq (pfo : Option PathFilter) (acc : List String) (c : String) :
    (if pfo.isSome && !shouldComparePath c pfo then acc
     else if hasBracket c then
       let arrayPath := truncateAtBracket c
       if pfo.isSome && !shouldComparePath arrayPath pfo then acc
       else setAdd acc arrayPath
     else setAdd acc c) =
    (if ppKeep pfo c = true then setAdd acc (ppProj c) else acc) := by
  rw [ppKeep, ppProj]
  by_cases h1 : pfo.isSome && !shouldComparePath c pfo
  · simp [h1]
  · by_cases h2 : hasBracket c
    · by_cases h3 : pfo.isSome && !shouldComparePath (truncateAtBracket c) pfo
      · simp [h1, h2, h3]
      · simp [h1, h2, h3]
    · simp [h1, h2]

theorem mem_ppFold (pfo : Option PathFilter) :
    ∀ (sc : List String) (acc : List String) (x : String),
      (x ∈ sc.foldl (fun processed conflict =>
        if pfo.isSome && !shouldComparePath conflict pfo then processed
        else if hasBracket conflict then
          let arrayPath := truncateAtBracket conflict
          if pfo.isSome && !shouldComparePath arrayPath pfo then processed
          else setAdd processed arrayPath
        else setAdd processed conflict) acc) ↔
      (x ∈ acc ∨ ∃ c ∈ sc, ppKeep pfo c = true ∧ x = ppProj c) := by
  intro sc
  induction sc with
  | nil => simp
  | cons c rest ih =>
      intro acc x
      rw [List.foldl_cons, ih, ppStep_eq]
      by_cases hk : ppKeep pfo c = true
      · rw [if_pos hk]
        rw [mem_setAdd]
        constructor
        · rintro ((hx | hx) | hx)
          · exact Or.inl hx
          · exact Or.inr ⟨c, by simp, hk, hx⟩
          · rcases hx with ⟨d, hd, hkd, hxd⟩
            exact Or.inr ⟨d, by simp [hd], hkd, hxd⟩
        · rintro (hx | ⟨d, hd, hkd, hxd⟩)
          · exact Or.inl (Or.inl hx)
          · rcases List.mem_cons.mp hd with hd | hd
            · exact Or.inl (Or.inr (by rw [hxd, hd]))
            · exact Or.inr ⟨d, hd, hkd, hxd⟩
      · rw [if_neg hk]
        constructor
        · rintro (hx | ⟨d, hd, hkd, hxd⟩)
          · exact Or.inl hx
          · exact Or.inr ⟨d, by simp [hd], hkd, hxd⟩
        · rintro (hx | ⟨d, hd, hkd, hxd⟩)
          · exact Or.inl hx
          · rcases List.mem_cons.mp hd with hd | hd
            · exact absurd (hd ▸ hkd) hk
            · exact Or.inr ⟨d, hd, hkd, hxd⟩

theorem mem_postProcessConflicts (pfo : Option PathFilter) (sc : List String)
    (x : String) :
    x ∈ postProcessConflicts sc pfo ↔
      ∃ c ∈ sc, ppKeep pfo c = true ∧ x = ppProj c := by
  rw [postProcessConflicts, mem_ppFold]
  simp

theorem postProcessConflicts_mono (pfo : Option PathFilter)
    (s1 s2 : List String) (hsub : s1 ⊆ s2) :
    postProcessConflicts s1 pfo ⊆ postProcessConflicts s2 pfo := by
  intro x hx
  rw [mem_postProcessConflicts] at hx ⊢
  rcases hx with ⟨c, hc, hk, hp⟩
  exact ⟨c, hsub hc, hk, hp⟩

theorem filterMap_paths_mono (l1 l2 : List DItem) (hsub : l1 ⊆ l2) :
    (l1.filterMap (fun it => match it with
      | .path p => some p | .diff _ => none)) ⊆
    (l2.filterMap (fun it => match it with
      | .path p => some p | .diff _ => none)) := by
  intro x hx
  rcases List.mem_filterMap.mp hx with ⟨it, hit, hx⟩
  exact List.mem_filterMap.mpr ⟨it, hsub hit, hx⟩

/-- C6: with all other options held fixed, the set of conflict paths
reported under loose equality (`strict = false`) is a subset of the set
reported under strict equality (`strict = true`): loose equality never
reports a difference that strict equality does not also report. -/
theorem c6_strict_loose_monotonicity (h : Heap) (fuel : Nat) (a b : JVal)
    (path : String) (options : ComparisonOptions) :
    okPaths (CompareValuesWithConflicts h fuel a b path
      { options with strict := false }) ⊆
    okPaths (CompareValuesWithConflicts h fuel a b path
      { options with strict := true }) := by
  obtain ⟨s, circ, pf⟩ := options
  show okPaths (CompareValuesWithConflicts h fuel a b path ⟨false, circ, pf⟩) ⊆
    okPaths (CompareValuesWithConflicts h fuel a b path ⟨true, circ, pf⟩)
  rw [CompareValuesWithConflicts, CompareValuesWithConflicts]
  dsimp only
  split
  · exact fun x hx => hx
  · split
    · exact fun x hx => hx
    · have hrel := (mono_all h circ pf fuel).1 a b path false [] []
      cases eL : handleDepthComparison h fuel a b path ⟨false, circ, pf⟩ false false [] [] with
      | error e1 =>
          cases eS : handleDepthComparison h fuel a b path ⟨true, circ, pf⟩ false false [] [] with
          | error e2 =>
              rw [eL, eS] at hrel
              cases hrel
              try simp only [eL, eS]
              cases e1 with
              | circular p =>
                  dsimp only
                  split
                  · exact fun x hx => hx
                  · exact fun x hx => hx
              | fuelExhausted => exact fun x hx => hx
          | ok rS =>
              rw [eL, eS] at hrel
              exact absurd hrel (by simp [OutRel])
      | ok rL =>
          cases eS : handleDepthComparison h fuel a b path ⟨true, circ, pf⟩ false false [] [] with
          | error e2 =>
              rw [eL, eS] at hrel
              exact absurd hrel (by simp [OutRel])
          | ok rS =>
              rw [eL, eS] at hrel
              try simp only [eL, eS]
              cases rS with
              | bool bS =>
                  cases bS with
                  | true =>
                      have hrl : rL = DeepResult.bool true := hrel
                      subst hrl
                      exact fun x hx => hx
                  | false =>
                      rcases hrel with hrl | hrl <;> subst hrl <;> exact fun x hx => hx
              | items ls =>
                  rcases hrel with hrl | ⟨ll, hrl, hlls⟩ <;> subst hrl
                  · dsimp only [okPaths]
                    exact fun x hx => absurd hx (List.not_mem_nil x)
                  · dsimp only [okPaths]
                    exact postProcessConflicts_mono pf _ _ (filterMap_paths_mono ll ls hlls)

/-- C6, witness: a concrete pair where the loose run reports a path, at
which membership transfers to the strict run. -/
theorem c6_witness :
    "" ∈ okPaths (CompareValuesWithConflicts emptyHeap 5 (.prim (.num 1))
      (.prim (.num 2)) "" { ({} : ComparisonOptions) with strict := true }) :=
  c6_strict_loose_monotonicity emptyHeap 5 (.prim (.num 1)) (.prim (.num 2)) ""
    {} (by decide)

/-! ### C7: reflexivity. -/

/-- Depth-bounded well-formedness: the value's reachable structure has
depth below `n`, and no not-a-number leaf occurs in it.  `∃ n, okVal h n
x` states that `x` is acyclic and NaN-free. -/
def okVal (h : Heap) : Nat → JVal → Bool
  | 0, _ => false
  | _ + 1, .prim p => !(p = .nan)
  | n + 1, .ref a =>
      match lookupNode h a with
      | .arr l => l.all (okVal h n)
      | .obj fs => fs.all (fun f => okVal h n f.2)
      | .date _ => true
      | .regexp _ => true

/-- `x` is acyclic (through the heap) and contains no NaN. -/
def OkV (h : Heap) (x : JVal) : Prop := ∃ n, okVal h n x = true

/-- `w` is a direct child (array element or own field value) of `v`. -/
def childOf (h : Heap) (w v : JVal) : Prop :=
  ∃ a, v = .ref a ∧
    (match lookupNode h a with
     | .arr l => w ∈ l
     | .obj fs => ∃ k, (k, w) ∈ fs
     | _ => False)

/-- `StepsTo h v d w`: from `v`, following `d` child edges, one reaches
`w`. -/
inductive StepsTo (h : Heap) : JVal → Nat → JVal → Prop where
  | zero (v : JVal) : StepsTo h v 0 v
  | succ {v w u : JVal} {d : Nat} :
      childOf h w v → StepsTo h w d u → StepsTo h v (d + 1) u

theorem okVal_child (h : Heap) (n : Nat) (a : Nat) (w : JVal)
    (hok : okVal h (n + 1) (.ref a) = true) (hc : childOf h w (.ref a)) :
    okVal h n w = true := by
  rcases hc with ⟨a', ha', hch⟩
  injection ha' with ha'
  subst ha'
  rw [okVal] at hok
  cases hnode : lookupNode h a with
  | arr l =>
      rw [hnode] at hok hch
      dsimp only at hok hch
      exact List.all_eq_true.mp hok w hch
  | obj fs =>
      rw [hnode] at hok hch
      dsimp only at hok hch
      rcases hch with ⟨k, hk⟩
      exact List.all_eq_true.mp hok (k, w) hk
  | date t =>
      rw [hnode] at hch
      dsimp only at hch
  | regexp s =>
      rw [hnode] at hch
      dsimp only at hch

theorem stepsTo_lt (h : Heap) {v w : JVal} {d : Nat} (hs : StepsTo h v d w) :
    ∀ n, okVal h n v = true → d < n := by
  induction hs with
  | zero v =>
      intro n hok
      cases n with
      | zero => simp [okVal] at hok
      | succ m => exact Nat.succ_pos m
  | succ hc hs ih =>
      rename_i v w u d
      intro n hok
      rcases hc with ⟨a, ha, hch⟩
      subst ha
      cases n with
      | zero => simp [okVal] at hok
      | succ m =>
          have hw : okVal h m w = true := okVal_child h m a w hok ⟨a, rfl, hch⟩
          exact Nat.succ_lt_succ (ih m hw)

theorem stepsTo_trans (h : Heap) {v w u : JVal} {d e : Nat}
    (h1 : StepsTo h v d w) (h2 : StepsTo h w e u) : StepsTo h v (d + e) u := by
  induction h1 with
  | zero v => simpa using h2
  | succ hc hs ih =>
      rename_i v' w' u' d'
      have := StepsTo.succ hc (ih h2)
      simpa [Nat.succ_add, Nat.add_right_comm] using this

theorem stepsTo_mul (h : Heap) {v : JVal} {d : Nat} (hs : StepsTo h v d v) :
    ∀ k, StepsTo h v (k * d) v := by
  intro k
  induction k with
  | zero => simpa using StepsTo.zero v
  | succ m ih =>
      have := stepsTo_trans h ih hs
      simpa [Nat.succ_mul] using this

theorem no_self_cycle (h : Heap) {a : Nat} {n d : Nat}
    (hok : okVal h n (.ref a) = true) (hs : StepsTo h (.ref a) d (.ref a))
    (hd : 0 < d) : False := by
  have hlt := stepsTo_lt h (stepsTo_mul h hs n) n hok
  have hge : n ≤ n * d := Nat.le_mul_of_pos_right n hd
  omega

/-- Every address in the ledger strictly reaches the current value (it is
a strict ancestor in the ongoing walk). -/
def Fresh (h : Heap) (m : VMap) (v : JVal) : Prop :=
  ∀ b p, (b, p) ∈ m → ∃ d, 0 < d ∧ StepsTo h (.ref b) d v

theorem fresh_nil (h : Heap) (v : JVal) : Fresh h [] v := by
  intro b p hb
  exact absurd hb (List.not_mem_nil _)

theorem fresh_get_none (h : Heap) {m : VMap} {v : JVal} {n : Nat}
    (hok : okVal h n v = true) (hf : Fresh h m v) : vmapGet m v = none := by
  cases v with
  | prim p => rfl
  | ref a =>
      rw [vmapGet]
      cases hfind : m.find? (fun e => e.1 = a) with
      | none => rfl
      | some e =>
          obtain ⟨b, p⟩ := e
          have hmem := List.mem_of_find?_eq_some hfind
          have hba : b = a := by
            have := List.find?_some hfind
            simpa using this
          subst hba
          rcases hf b p hmem with ⟨d, hd, hs⟩
          exact absurd (no_self_cycle h hok hs hd) (fun x => x)

theorem fresh_extend (h : Heap) {m : VMap} {a : Nat} {c : JVal} (path : String)
    (hf : Fresh h m (.ref a)) (hc : childOf h c (.ref a)) :
    Fresh h (vmapSet m (.ref a) path) c := by
  intro b p hb
  rw [vmapSet] at hb
  rcases List.mem_cons.mp hb with hb | hb
  · injection hb with hb1 hb2
    subst hb1
    exact ⟨1, Nat.one_pos, StepsTo.succ hc (StepsTo.zero c)⟩
  · rcases hf b p hb with ⟨d, hd, hs⟩
    exact ⟨d + 1, Nat.succ_pos d,
      stepsTo_trans h hs (StepsTo.succ hc (StepsTo.zero c))⟩

theorem childOf_arr (h : Heap) {a : Nat} {l : List JVal} {w : JVal}
    (hn : lookupNode h a = .arr l) (hw : w ∈ l) : childOf h w (.ref a) := by
  refine ⟨a, rfl, ?_⟩
  rw [hn]
  exact hw

theorem childOf_obj (h : Heap) {a : Nat} {fs : List (String × JVal)} {k : String}
    {w : JVal} (hn : lookupNode h a = .obj fs) (hw : (k, w) ∈ fs) :
    childOf h w (.ref a) := by
  refine ⟨a, rfl, ?_⟩
  rw [hn]
  exact ⟨k, hw⟩

theorem zip_self {α : Type} : ∀ l : List α, l.zip l = l.map (fun x => (x, x))
  | [] => rfl
  | x :: xs => by simp [zip_self xs]

theorem mem_enumFrom_snd {α : Type} :
    ∀ (l : List α) (n : Nat) (p : Nat × α), p ∈ l.enumFrom n → p.2 ∈ l := by
  intro l
  induction l with
  | nil => intro n p hp; simp [List.enumFrom] at hp
  | cons x xs ih =>
      intro n p hp
      rw [List.enumFrom] at hp
      rcases List.mem_cons.mp hp with hp | hp
      · subst hp; exact List.mem_cons_self _ _
      · exact List.mem_cons_of_mem _ (ih (n + 1) p hp)

/-- Single fuel induction establishing reflexivity of the traversal
engine on acyclic NaN-free inputs (modulo fuel exhaustion), simultaneously
for the engine and its two loops. -/
theorem refl_all (h : Heap) : ∀ fuel,
    (∀ x path isArr detailed v1 v2, OkV h x → Fresh h v1 x → Fresh h v2 x →
      handleDepthComparison h fuel x x path {} isArr detailed v1 v2 = .ok (.bool true) ∨
      handleDepthComparison h fuel x x path {} isArr detailed v1 v2 = .error .fuelExhausted) ∧
    (∀ pairs path detailed fv sv acc hc,
      (∀ p ∈ pairs, p.2.1 = p.2.2 ∧ OkV h p.2.1 ∧ Fresh h fv p.2.1 ∧ Fresh h sv p.2.1) →
      arrayElemLoop h fuel pairs path {} detailed fv sv acc hc = .ok (acc, hc) ∨
      arrayElemLoop h fuel pairs path {} detailed fv sv acc hc = .error .fuelExhausted) ∧
    (∀ keys x path detailed fv sv acc,
      (∀ k ∈ keys, hasOwnV h x k = true ∧ OkV h (getProp h x k) ∧
        Fresh h fv (getProp h x k) ∧ Fresh h sv (getProp h x k)) →
      objKeyLoop h fuel keys x x path {} detailed fv sv acc = .ok acc ∨
      objKeyLoop h fuel keys x x path {} detailed fv sv acc = .error .fuelExhausted) := by
  intro fuel
  induction fuel with
  | zero =>
      refine ⟨?_, ?_, ?_⟩
      · intro x path isArr detailed v1 v2 _ _ _
        exact Or.inr rfl
      · intro pairs path detailed fv sv acc hc _
        cases pairs <;> exact Or.inr rfl
      · intro keys x path detailed fv sv acc _
        cases keys <;> exact Or.inr rfl
  | succ f ih =>
      obtain ⟨ihH, ihA, ihK⟩ := ih
      refine ⟨?_, ?_, ?_⟩
      · -- handleDepthComparison
        intro x path isArr detailed v1 v2 hok hf1 hf2
        obtain ⟨n, hokn⟩ := hok
        cases n with
        | zero => simp [okVal] at hokn
        | succ m =>
          cases x with
          | prim p =>
              left
              have hp : ¬ p = .nan := by simpa [okVal] using hokn
              simp [handleDepthComparison, shouldComparePath, isDateV, isRegExpV,
                isArrayV, isObjectV, areValuesEqual, strictEq, hp]
          | ref a =>
              have hnone1 : vmapGet v1 (.ref a) = none := fresh_get_none h hokn hf1
              have hnone2 : vmapGet v2 (.ref a) = none := fresh_get_none h hokn hf2
              cases hnode : lookupNode h a with
              | date t =>
                  left
                  simp [handleDepthComparison, shouldComparePath, isDateV, hnode]
              | regexp s =>
                  left
                  simp [handleDepthComparison, shouldComparePath, isDateV, isRegExpV,
                    regexpSrc, hnode]
              | arr l =>
                  have helem : ∀ p ∈ (l.zip l).enum, p.2.1 = p.2.2 ∧ OkV h p.2.1 ∧
                      Fresh h (vmapSet v1 (.ref a) path) p.2.1 ∧
                      Fresh h (vmapSet v2 (.ref a) path) p.2.1 := by
                    intro p hp
                    obtain ⟨i, y⟩ := p
                    have hsnd : (i, y).2 ∈ l.zip l := mem_enumFrom_snd _ 0 _ hp
                    rw [zip_self] at hsnd
                    rcases List.mem_map.mp hsnd with ⟨xi, hxi, hpe⟩
                    have hy : y = (xi, xi) := by
                      have : ((xi, xi) : JVal × JVal) = y := hpe
                      exact this.symm
                    subst hy
                    have hchild : childOf h xi (.ref a) := childOf_arr h hnode hxi
                    have hoki : okVal h m xi = true := okVal_child h m a xi hokn hchild
                    exact ⟨rfl, ⟨m, hoki⟩, fresh_extend h path hf1 hchild,
                      fresh_extend h path hf2 hchild⟩
                  rcases ihA ((l.zip l).enum) path detailed (vmapSet v1 (.ref a) path)
                      (vmapSet v2 (.ref a) path) [] false helem with hA | hA
                  · left
                    simp [handleDepthComparison, shouldComparePath, isDateV, isRegExpV,
                      isArrayV, hnode, hnone1, hnone2, arrElems, hA]
                  · right
                    simp [handleDepthComparison, shouldComparePath, isDateV, isRegExpV,
                      isArrayV, hnode, hnone1, hnone2, arrElems, hA]
              | obj fs =>
                  have hkeys : ∀ k ∈ dedupKeepFirst (jsKeys h (.ref a) ++ jsKeys h (.ref a)),
                      hasOwnV h (.ref a) k = true ∧ OkV h (getProp h (.ref a) k) ∧
                      Fresh h (vmapSet v1 (.ref a) path) (getProp h (.ref a) k) ∧
                      Fresh h (vmapSet v2 (.ref a) path) (getProp h (.ref a) k) := by
                    intro k hk
                    rw [mem_dedupKeepFirst] at hk
                    have hk1 : k ∈ jsKeys h (.ref a) := by
                      rcases List.mem_append.mp hk with hk | hk <;> exact hk
                    have hk2 : k ∈ fs.map Prod.fst := by simpa [jsKeys, hnode] using hk1
                    rcases List.mem_map.mp hk2 with ⟨f0, hf0, hfk⟩
                    have hown : hasOwnV h (.ref a) k = true := by
                      simp only [hasOwnV, hnode, List.any_eq_true]
                      exact ⟨f0, hf0, by simp [hfk]⟩
                    have hfind : (fs.find? (fun f => f.1 = k)).isSome := by
                      rw [List.find?_isSome]
                      exact ⟨f0, hf0, by simp [hfk]⟩
                    rcases Option.isSome_iff_exists.mp hfind with ⟨f1, hf1q⟩
                    have hf1mem : f1 ∈ fs := List.mem_of_find?_eq_some hf1q
                    have hgp : getProp h (.ref a) k = f1.2 := by
                      simp [getProp, hnode, hf1q]
                    have hchild : childOf h f1.2 (.ref a) :=
                      childOf_obj h hnode (show (f1.1, f1.2) ∈ fs by simpa using hf1mem)
                    have hoki : okVal h m f1.2 = true := okVal_child h m a _ hokn hchild
                    rw [hgp]
                    exact ⟨hown, ⟨m, hoki⟩, fresh_extend h path hf1 hchild,
                      fresh_extend h path hf2 hchild⟩
                  rcases ihK (dedupKeepFirst (jsKeys h (.ref a) ++ jsKeys h (.ref a)))
                      (.ref a) path detailed (vmapSet v1 (.ref a) path)
                      (vmapSet v2 (.ref a) path) [] hkeys with hK | hK
                  · left
                    simp [handleDepthComparison, shouldComparePath, isDateV, isRegExpV,
                      isArrayV, isObjectV, hnode, hnone1, hnone2, hK]
                  · right
                    simp [handleDepthComparison, shouldComparePath, isDateV, isRegExpV,
                      isArrayV, isObjectV, hnode, hnone1, hnone2, hK]
      · -- arrayElemLoop
        intro pairs path detailed fv sv acc hc hyp
        cases pairs with
        | nil => exact Or.inl rfl
        | cons p rest =>
            obtain ⟨i, x, y⟩ := p
            obtain ⟨hxy, hokx, hfx, hsx⟩ := hyp (i, x, y) (List.mem_cons_self _ _)
            have hxy2 : x = y := hxy
            subst hxy2
            have hrest : ∀ p ∈ rest, p.2.1 = p.2.2 ∧ OkV h p.2.1 ∧
                Fresh h fv p.2.1 ∧ Fresh h sv p.2.1 :=
              fun p hp => hyp p (List.mem_cons_of_mem _ hp)
            by_cases hobj : isObjectV h x = true
            · rcases ihH x (path ++ "[" ++ toString i ++ "]") false detailed fv sv hokx hfx hsx
                with hH | hH
              · rcases ihA rest path detailed fv sv acc hc hrest with hA | hA
                · left; simp [arrayElemLoop, shouldComparePath, hobj, hH, hA]
                · right; simp [arrayElemLoop, shouldComparePath, hobj, hH, hA]
              · right; simp [arrayElemLoop, shouldComparePath, hobj, hH]
            · by_cases harr : isArrayV h x = true
              · rcases ihH x (path ++ "[" ++ toString i ++ "]") true detailed fv sv hokx hfx hsx
                  with hH | hH
                · rcases ihA rest path detailed fv sv acc hc hrest with hA | hA
                  · left; simp [arrayElemLoop, shouldComparePath, hobj, harr, hH, hA]
                  · right; simp [arrayElemLoop, shouldComparePath, hobj, harr, hH, hA]
                · right; simp [arrayElemLoop, shouldComparePath, hobj, harr, hH]
              · have hprim : ∃ p0, x = .prim p0 := by
                  cases x with
                  | prim p0 => exact ⟨p0, rfl⟩
                  | ref a =>
                      cases hn2 : lookupNode h a with
                      | arr l => exact absurd (by simp [isArrayV, hn2]) harr
                      | obj fs => exact absurd (by simp [isObjectV, hn2]) hobj
                      | date t => exact absurd (by simp [isObjectV, hn2]) hobj
                      | regexp s => exact absurd (by simp [isObjectV, hn2]) hobj
                rcases hprim with ⟨p0, rfl⟩
                obtain ⟨n, hokn⟩ := hokx
                cases n with
                | zero => simp [okVal] at hokn
                | succ m =>
                  have hnp : ¬ p0 = .nan := by simpa [okVal] using hokn
                  rcases ihA rest path detailed fv sv acc hc hrest with hA | hA
                  · left
                    simp [arrayElemLoop, shouldComparePath, isObjectV, isArrayV,
                      areValuesEqual, strictEq, hnp, hA]
                  · right
                    simp [arrayElemLoop, shouldComparePath, isObjectV, isArrayV,
                      areValuesEqual, strictEq, hnp, hA]
      · -- objKeyLoop
        intro keys x path detailed fv sv acc hyp
        cases keys with
        | nil => exact Or.inl rfl
        | cons key rest =>
            obtain ⟨hown, hokk, hfk, hsk⟩ := hyp key (List.mem_cons_self _ _)
            have hrest : ∀ k ∈ rest, hasOwnV h x k = true ∧ OkV h (getProp h x k) ∧
                Fresh h fv (getProp h x k) ∧ Fresh h sv (getProp h x k) :=
              fun k hk => hyp k (List.mem_cons_of_mem _ hk)
            rcases ihH (getProp h x key) (if path = "" then key else path ++ "." ++ key)
                false detailed fv sv hokk hfk hsk with hH | hH
            · rcases ihK rest x path detailed fv sv acc hrest with hK | hK
              · left; simp [objKeyLoop, shouldComparePath, hown, hH, hK]
              · right; simp [objKeyLoop, shouldComparePath, hown, hH, hK]
            · right; simp [objKeyLoop, shouldComparePath, hown, hH]

/-- Heap with two distinct one-element array wrappers around the number 5. -/
def c7Heap : Heap := [.arr [.prim (.num 5)], .arr [.prim (.num 5)]]

/-- Heap with two distinct one-element array wrappers around `NaN`. -/
def c7NanHeap : Heap := [.arr [.prim .nan], .arr [.prim .nan]]

/-- C7 counterexample: `NaN` is an acyclic comparable value, yet
`CompareArrays([NaN], [NaN])` under default options returns `false` (the
element comparison uses strict equality, under which `NaN ≠ NaN`), not
`true` as the claim states. -/
theorem c7_counterexample :
    CompareArrays c7NanHeap 10 (.ref 0) (.ref 1) {} = .ok false := by rfl

/-- **C7** (amended): reflexivity holds for acyclic *NaN-free* values.
If the heap wraps a value `x` in two (not necessarily distinct) array
nodes `a1`, `a2` whose reachable structure is acyclic and NaN-free, then
`CompareValuesWithConflicts(x, x)` returns the empty list (this part
needs no side condition: it is the `Object.is` short-circuit), and
`CompareArrays([x], [x])` under default options returns `true` whenever
the run completes within the modelled depth. -/
theorem c7_reflexivity (h : Heap) (fuel : Nat) (x : JVal) (a1 a2 : Nat)
    (path : String) (opts : ComparisonOptions)
    (h1 : lookupNode h a1 = .arr [x]) (h2 : lookupNode h a2 = .arr [x])
    (hok1 : OkV h (.ref a1)) (hok2 : OkV h (.ref a2)) :
    CompareValuesWithConflicts h fuel x x path opts = .ok [] ∧
    (CompareArrays h fuel (.ref a1) (.ref a2) {} = .ok true ∨
     CompareArrays h fuel (.ref a1) (.ref a2) {} = .error .fuelExhausted) := by
  constructor
  · simp [CompareValuesWithConflicts, objectIs_self]
  obtain ⟨n1, hok1n⟩ := hok1
  obtain ⟨n2, hok2n⟩ := hok2
  cases n1 with
  | zero => simp [okVal] at hok1n
  | succ m1 =>
  cases n2 with
  | zero => simp [okVal] at hok2n
  | succ m2 =>
  have hchild1 : childOf h x (.ref a1) := childOf_arr h h1 (List.mem_singleton.mpr rfl)
  have hchild2 : childOf h x (.ref a2) := childOf_arr h h2 (List.mem_singleton.mpr rfl)
  have hne1 : strictEq x (.ref a1) = false := by
    cases x with
    | prim p => rfl
    | ref c =>
        by_cases hc : c = a1
        · subst hc
          exact ((no_self_cycle h hok1n
            (StepsTo.succ hchild1 (StepsTo.zero _)) Nat.one_pos)).elim
        · simp [strictEq, hc]
  have hne2 : strictEq x (.ref a2) = false := by
    cases x with
    | prim p => rfl
    | ref c =>
        by_cases hc : c = a2
        · subst hc
          exact ((no_self_cycle h hok2n
            (StepsTo.succ hchild2 (StepsTo.zero _)) Nat.one_pos)).elim
        · simp [strictEq, hc]
  have hscan1 : firstSelfRefIdx (.ref a1) [x] = none := by
    simp [firstSelfRefIdx, List.findIdx?_cons, hne1]
  have hscan2 : firstSelfRefIdx (.ref a2) [x] = none := by
    simp [firstSelfRefIdx, List.findIdx?_cons, hne2]
  by_cases h12 : a1 = a2
  · left
    subst h12
    simp [CompareArrays, isArrayV, h1, strictEq]
  · have hokx : okVal h m1 x = true := okVal_child h m1 a1 x hok1n hchild1
    have helem : ∀ p ∈ [((0 : Nat), (x, x))], p.2.1 = p.2.2 ∧ OkV h p.2.1 ∧
        Fresh h [(a1, "")] p.2.1 ∧ Fresh h [(a2, "")] p.2.1 := by
      intro p hp
      rw [List.mem_singleton] at hp
      subst hp
      refine ⟨rfl, ⟨m1, hokx⟩, ?_, ?_⟩
      · intro b q hb
        rw [List.mem_singleton] at hb
        injection hb with hb1 hb2
        subst hb1
        exact ⟨1, Nat.one_pos, StepsTo.succ hchild1 (StepsTo.zero x)⟩
      · intro b q hb
        rw [List.mem_singleton] at hb
        injection hb with hb1 hb2
        subst hb1
        exact ⟨1, Nat.one_pos, StepsTo.succ hchild2 (StepsTo.zero x)⟩
    cases fuel with
    | zero =>
        right
        simp [CompareArrays, isArrayV, arrElems, h1, h2, strictEq, h12, hscan1,
          hscan2, handleDepthComparison]
    | succ f =>
        rcases (refl_all h f).2.1 [((0 : Nat), (x, x))] "" false [(a1, "")] [(a2, "")]
            [] false helem with hA | hA
        · left
          simp [CompareArrays, isArrayV, h1, h2, strictEq, h12, hscan1, hscan2,
            handleDepthComparison, shouldComparePath, isDateV, isRegExpV,
            vmapGet, vmapSet, arrElems, hA]
        · right
          simp [CompareArrays, isArrayV, h1, h2, strictEq, h12, hscan1, hscan2,
            handleDepthComparison, shouldComparePath, isDateV, isRegExpV,
            vmapGet, vmapSet, arrElems, hA]

/-- C7 witness: a concrete instance of `c7_reflexivity` — two distinct
heap arrays both containing the number 5, compared with fuel 3. -/
theorem c7_witness :
    CompareValuesWithConflicts c7Heap 3 (.prim (.num 5)) (.prim (.num 5)) "" {} = .ok [] ∧
    CompareArrays c7Heap 3 (.ref 0) (.ref 1) {} = .ok true := by
  obtain ⟨hv, hd⟩ := c7_reflexivity c7Heap 3 (.prim (.num 5)) 0 1 "" {} rfl rfl
    ⟨2, by decide⟩ ⟨2, by decide⟩
  refine ⟨hv, ?_⟩
  have hrfl : CompareArrays c7Heap 3 (.ref 0) (.ref 1) {} = .ok true := by rfl
  rcases hd with hd | hd
  · exact hd
  · rw [hrfl] at hd
    exact Except.noConfusion hd
/-! ### C5: the detailed-difference record invariant. -/

/-- Heap exhibiting the C5 counterexample: keys whose stored value is
`undefined` on the present side. -/
def c5Heap : Heap := [.obj [("p", .prim .undef), ("x", .prim .undef)],
                      .obj [("q", .prim .undef), ("x", .prim (.num 5))]]

/-- The record invariant a `DetailedDifference` entry actually satisfies:
`added` fixes `oldValue` to `undefined`, `removed` fixes `newValue` to
`undefined`, `changed` entries relate values unequal under strict
equality semantics. -/
def GoodDiff (h : Heap) (d : DetailedDifference) : Prop :=
  (d.type = .added → d.oldValue = .prim .undef) ∧
  (d.type = .removed → d.newValue = .prim .undef) ∧
  (d.type = .changed → areValuesEqual h d.oldValue d.newValue true = false)

theorem goodDiff_changed (h : Heap) (p : String) (u v : JVal)
    (hne : areValuesEqual h u v true = false) :
    GoodDiff h ⟨p, .changed, u, v⟩ :=
  ⟨fun ht => absurd ht (by simp), fun ht => absurd ht (by simp), fun _ => hne⟩

theorem goodDiff_added (h : Heap) (p : String) (w : JVal) :
    GoodDiff h ⟨p, .added, .prim .undef, w⟩ :=
  ⟨fun _ => rfl, fun ht => absurd ht (by simp), fun ht => absurd ht (by simp)⟩

theorem goodDiff_removed (h : Heap) (p : String) (w : JVal) :
    GoodDiff h ⟨p, .removed, w, .prim .undef⟩ :=
  ⟨fun ht => absurd ht (by simp), fun _ => rfl, fun ht => absurd ht (by simp)⟩

theorem goodAcc_append {h : Heap} {acc l : List DItem}
    (ha : ∀ d, .diff d ∈ acc → GoodDiff h d)
    (hl : ∀ d, .diff d ∈ l → GoodDiff h d) :
    ∀ d, .diff d ∈ acc ++ l → GoodDiff h d := by
  intro d hd
  rcases List.mem_append.mp hd with hd | hd
  · exact ha d hd
  · exact hl d hd

theorem goodAcc_push {h : Heap} {acc : List DItem}
    (ha : ∀ d, .diff d ∈ acc → GoodDiff h d) {d0 : DetailedDifference}
    (hd0 : GoodDiff h d0) :
    ∀ d, .diff d ∈ acc ++ [.diff d0] → GoodDiff h d := by
  refine goodAcc_append ha ?_
  intro d hd
  simp at hd
  exact hd ▸ hd0

theorem aveq_strict_false_of_strictEq_false (h : Heap) {u v : JVal}
    (hse : strictEq u v = false) : areValuesEqual h u v true = false := by
  simp [areValuesEqual, hse]

theorem isDateV_elim {h : Heap} {u : JVal} (hd : isDateV h u = true) :
    ∃ a t, u = .ref a ∧ lookupNode h a = .date t := by
  cases u with
  | prim p => simp [isDateV] at hd
  | ref a =>
      cases hn : lookupNode h a with
      | date t => exact ⟨a, t, rfl, hn⟩
      | arr l => simp [isDateV, hn] at hd
      | obj fs => simp [isDateV, hn] at hd
      | regexp s => simp [isDateV, hn] at hd

theorem isRegExpV_elim {h : Heap} {u : JVal} (hd : isRegExpV h u = true) :
    ∃ a s, u = .ref a ∧ lookupNode h a = .regexp s := by
  cases u with
  | prim p => simp [isRegExpV] at hd
  | ref a =>
      cases hn : lookupNode h a with
      | regexp s => exact ⟨a, s, rfl, hn⟩
      | arr l => simp [isRegExpV, hn] at hd
      | obj fs => simp [isRegExpV, hn] at hd
      | date t => simp [isRegExpV, hn] at hd

theorem isArrayV_elim {h : Heap} {u : JVal} (hd : isArrayV h u = true) :
    ∃ a l, u = .ref a ∧ lookupNode h a = .arr l := by
  cases u with
  | prim p => simp [isArrayV] at hd
  | ref a =>
      cases hn : lookupNode h a with
      | arr l => exact ⟨a, l, rfl, hn⟩
      | obj fs => simp [isArrayV, hn] at hd
      | date t => simp [isArrayV, hn] at hd
      | regexp s => simp [isArrayV, hn] at hd

theorem aveq_strict_date_ne (h : Heap) {u v : JVal} (h1 : isDateV h u = true)
    (h2 : isDateV h v = true) (hne : ¬ dateTime h u = dateTime h v) :
    areValuesEqual h u v true = false := by
  rcases isDateV_elim h1 with ⟨a, t1, rfl, hn1⟩
  rcases isDateV_elim h2 with ⟨b, t2, rfl, hn2⟩
  by_cases hab : a = b
  · subst hab
    exact absurd rfl hne
  · exact aveq_strict_false_of_strictEq_false h (by simp [strictEq, hab])

theorem aveq_strict_regexp_ne (h : Heap) {u v : JVal} (h1 : isRegExpV h u = true)
    (h2 : isRegExpV h v = true) (hne : ¬ regexpSrc h u = regexpSrc h v) :
    areValuesEqual h u v true = false := by
  rcases isRegExpV_elim h1 with ⟨a, s1, rfl, hn1⟩
  rcases isRegExpV_elim h2 with ⟨b, s2, rfl, hn2⟩
  by_cases hab : a = b
  · subst hab
    exact absurd rfl hne
  · exact aveq_strict_false_of_strictEq_false h (by simp [strictEq, hab])

theorem aveq_strict_arrlen_ne (h : Heap) {u v : JVal} (h1 : isArrayV h u = true)
    (h2 : isArrayV h v = true)
    (hne : ¬ (arrElems h u).length = (arrElems h v).length) :
    areValuesEqual h u v true = false := by
  rcases isArrayV_elim h1 with ⟨a, l1, rfl, hn1⟩
  rcases isArrayV_elim h2 with ⟨b, l2, rfl, hn2⟩
  by_cases hab : a = b
  · subst hab
    exact absurd rfl hne
  · exact aveq_strict_false_of_strictEq_false h (by simp [strictEq, hab])

theorem getProp_child {h : Heap} {a : Nat} {fs : List (String × JVal)} {k : String}
    (hn : lookupNode h a = .obj fs) (hk : hasOwnV h (.ref a) k = true) :
    childOf h (getProp h (.ref a) k) (.ref a) := by
  simp only [hasOwnV, hn, List.any_eq_true] at hk
  rcases hk with ⟨f0, hf0, hfk⟩
  simp only [decide_eq_true_eq] at hfk
  have hfind : (fs.find? (fun f => f.1 = k)).isSome := by
    rw [List.find?_isSome]
    exact ⟨f0, hf0, by simp [hfk]⟩
  rcases Option.isSome_iff_exists.mp hfind with ⟨f1, hf1⟩
  have hgp : getProp h (.ref a) k = f1.2 := by simp [getProp, hn, hf1]
  rw [hgp]
  exact childOf_obj h hn (show (f1.1, f1.2) ∈ fs by simpa using List.mem_of_find?_eq_some hf1)

/-- Single fuel induction for the C5 invariant: every detailed entry
produced by the engine (strict default options) is `GoodDiff`, given that
both compared values are acyclic and NaN-free and the visited ledgers are
fresh. -/
theorem inv_all (h : Heap) : ∀ fuel,
    (∀ u v path isArr v1 v2 l, OkV h u → OkV h v → Fresh h v1 u → Fresh h v2 v →
      handleDepthComparison h fuel u v path {} isArr true v1 v2 = .ok (.items l) →
      ∀ d, .diff d ∈ l → GoodDiff h d) ∧
    (∀ pairs path fv sv acc hc res,
      (∀ p ∈ pairs, OkV h p.2.1 ∧ OkV h p.2.2 ∧ Fresh h fv p.2.1 ∧ Fresh h sv p.2.2) →
      (∀ d, .diff d ∈ acc → GoodDiff h d) →
      arrayElemLoop h fuel pairs path {} true fv sv acc hc = .ok res →
      ∀ d, .diff d ∈ res.1 → GoodDiff h d) ∧
    (∀ keys u v path fv sv acc l,
      isObjectV h u = true → isObjectV h v = true →
      (∀ k ∈ keys, hasOwnV h u k = true → hasOwnV h v k = true →
        OkV h (getProp h u k) ∧ OkV h (getProp h v k) ∧
        Fresh h fv (getProp h u k) ∧ Fresh h sv (getProp h v k)) →
      (∀ d, .diff d ∈ acc → GoodDiff h d) →
      objKeyLoop h fuel keys u v path {} true fv sv acc = .ok l →
      ∀ d, .diff d ∈ l → GoodDiff h d) := by
  intro fuel
  induction fuel with
  | zero =>
      refine ⟨?_, ?_, ?_⟩
      · intro u v path isArr v1 v2 l _ _ _ _ hres
        exact absurd hres (by simp [handleDepthComparison])
      · intro pairs path fv sv acc hc res _ _ hres
        cases pairs <;> exact absurd hres (by simp [arrayElemLoop])
      · intro keys u v path fv sv acc l _ _ _ _ hres
        cases keys <;> exact absurd hres (by simp [objKeyLoop])
  | succ f ih =>
      obtain ⟨ihH, ihA, ihK⟩ := ih
      refine ⟨?_, ?_, ?_⟩
      · -- handleDepthComparison
        intro u v path isArr v1 v2 l hoku hokv hf1 hf2 hres
        rw [handleDepthComparison] at hres
        rw [if_neg (by simp [shouldComparePath])] at hres
        dsimp only at hres
        split at hres
        · -- dates
          rename_i hdd
          rw [Bool.and_eq_true] at hdd
          obtain ⟨hd1, hd2⟩ := hdd
          split at hres
          · exact absurd hres (by simp)
          · rename_i hdt
            simp only [pushItem, if_true, List.nil_append, Except.ok.injEq,
              DeepResult.items.injEq] at hres
            subst hres
            intro d hd
            simp only [List.mem_singleton, DItem.diff.injEq] at hd
            subst hd
            exact goodDiff_changed h path u v (aveq_strict_date_ne h hd1 hd2 hdt)
        split at hres
        · -- regexps
          rename_i hrr
          rw [Bool.and_eq_true] at hrr
          obtain ⟨hr1, hr2⟩ := hrr
          split at hres
          · exact absurd hres (by simp)
          · rename_i hrt
            simp only [pushItem, if_true, List.nil_append, Except.ok.injEq,
              DeepResult.items.injEq] at hres
            subst hres
            intro d hd
            simp only [List.mem_singleton, DItem.diff.injEq] at hd
            subst hd
            exact goodDiff_changed h path u v (aveq_strict_regexp_ne h hr1 hr2 hrt)
        split at hres
        · -- arrays
          rename_i harr
          rw [Bool.and_eq_true] at harr
          obtain ⟨ha1, ha2⟩ := harr
          split at hres
          · -- both unvisited
            split at hres
            · -- length mismatch
              rename_i hlen
              split at hres
              · rename_i hcond
                exact absurd hres (by simp)
              split at hres
              · exact absurd hres (by simp)
              · simp only [pushItem, if_true, List.nil_append, Except.ok.injEq,
                  DeepResult.items.injEq] at hres
                subst hres
                intro d hd
                simp only [List.mem_singleton, DItem.diff.injEq] at hd
                subst hd
                exact goodDiff_changed h path u v (aveq_strict_arrlen_ne h ha1 ha2 hlen)
            · -- lengths equal: element loop
              rename_i hlen
              split at hres
              · exact absurd hres (by simp)
              · rename_i conflicts hc2 heq
                rcases isArrayV_elim ha1 with ⟨au, lau, rfl, hnu⟩
                rcases isArrayV_elim ha2 with ⟨av, lav, rfl, hnv⟩
                obtain ⟨nu, hoknu⟩ := hoku
                obtain ⟨nv, hoknv⟩ := hokv
                cases nu with
                | zero => simp [okVal] at hoknu
                | succ mu =>
                cases nv with
                | zero => simp [okVal] at hoknv
                | succ mv =>
                have helem : ∀ p ∈ ((arrElems h (.ref au)).zip (arrElems h (.ref av))).enum,
                    OkV h p.2.1 ∧ OkV h p.2.2 ∧
                    Fresh h (vmapSet v1 (.ref au) path) p.2.1 ∧
                    Fresh h (vmapSet v2 (.ref av) path) p.2.2 := by
                  intro p hp
                  obtain ⟨i, xx, yy⟩ := p
                  have hz : ((i, xx, yy) : Nat × JVal × JVal).2 ∈
                      (arrElems h (.ref au)).zip (arrElems h (.ref av)) :=
                    mem_enumFrom_snd _ 0 _ hp
                  have hmem := List.of_mem_zip hz
                  have hxx : xx ∈ lau := by
                    have := hmem.1
                    simpa [arrElems, hnu] using this
                  have hyy : yy ∈ lav := by
                    have := hmem.2
                    simpa [arrElems, hnv] using this
                  have hcx : childOf h xx (.ref au) := childOf_arr h hnu hxx
                  have hcy : childOf h yy (.ref av) := childOf_arr h hnv hyy
                  exact ⟨⟨mu, okVal_child h mu au xx hoknu hcx⟩,
                    ⟨mv, okVal_child h mv av yy hoknv hcy⟩,
                    fresh_extend h path hf1 hcx, fresh_extend h path hf2 hcy⟩
                split at hres
                · exact absurd hres (by simp)
                split at hres
                · rename_i hne
                  have hgd := ihA _ path (vmapSet v1 (.ref au) path)
                    (vmapSet v2 (.ref av) path) [] false (conflicts, hc2) helem
                    (by intro d hd; exact absurd hd (List.not_mem_nil _)) heq
                  simp only [Except.ok.injEq, DeepResult.items.injEq] at hres
                  subst hres
                  exact hgd
                · exact absurd hres (by simp)
          · -- a visited hit: default policy throws
            split at hres
            · exact absurd hres (by simp)
            · rename_i hq
              exact absurd rfl hq
        split at hres
        · -- objects
          rename_i hobj
          rw [Bool.and_eq_true] at hobj
          obtain ⟨ho1, ho2⟩ := hobj
          split at hres
          · -- both unvisited
            split at hres
            · exact absurd hres (by simp)
            · rename_i conflicts heq
              obtain ⟨nu, hoknu⟩ := hoku
              obtain ⟨nv, hoknv⟩ := hokv
              cases nu with
              | zero => simp [okVal] at hoknu
              | succ mu =>
              cases nv with
              | zero => simp [okVal] at hoknv
              | succ mv =>
              have hkeyhyp : ∀ k ∈ dedupKeepFirst (jsKeys h u ++ jsKeys h v),
                  hasOwnV h u k = true → hasOwnV h v k = true →
                  OkV h (getProp h u k) ∧ OkV h (getProp h v k) ∧
                  Fresh h (vmapSet v1 u path) (getProp h u k) ∧
                  Fresh h (vmapSet v2 v path) (getProp h v k) := by
                intro k hk hku hkv
                have hcu : childOf h (getProp h u k) u := by
                  cases u with
                  | prim p => simp [hasOwnV] at hku
                  | ref au =>
                      cases hnu : lookupNode h au with
                      | obj fsu => exact getProp_child hnu hku
                      | arr lu => simp [isObjectV, hnu] at ho1
                      | date t => simp [hasOwnV, hnu] at hku
                      | regexp s => simp [hasOwnV, hnu] at hku
                have hcv : childOf h (getProp h v k) v := by
                  cases v with
                  | prim p => simp [hasOwnV] at hkv
                  | ref av =>
                      cases hnv : lookupNode h av with
                      | obj fsv => exact getProp_child hnv hkv
                      | arr lv => simp [isObjectV, hnv] at ho2
                      | date t => simp [hasOwnV, hnv] at hkv
                      | regexp s => simp [hasOwnV, hnv] at hkv
                rcases hcu with ⟨au, hue, hcu'⟩
                rcases hcv with ⟨av, hve, hcv'⟩
                subst hue
                subst hve
                exact ⟨⟨mu, okVal_child h mu au _ hoknu ⟨au, rfl, hcu'⟩⟩,
                  ⟨mv, okVal_child h mv av _ hoknv ⟨av, rfl, hcv'⟩⟩,
                  fresh_extend h path hf1 ⟨au, rfl, hcu'⟩,
                  fresh_extend h path hf2 ⟨av, rfl, hcv'⟩⟩
              have hgd := ihK _ u v path (vmapSet v1 u path) (vmapSet v2 v path)
                [] conflicts ho1 ho2 hkeyhyp
                (by intro d hd; exact absurd hd (List.not_mem_nil _)) heq
              split at hres
              · rename_i hne
                simp only [Except.ok.injEq, DeepResult.items.injEq] at hres
                subst hres
                exact hgd
              · exact absurd hres (by simp)
          · -- a visited hit: default policy throws
            split at hres
            · exact absurd hres (by simp)
            · rename_i hq
              exact absurd rfl hq
        · -- primitive / mixed fallthrough
          split at hres
          · exact absurd hres (by simp)
          · rename_i hneq
            simp only [pushItem, if_true, List.nil_append, Except.ok.injEq,
              DeepResult.items.injEq] at hres
            subst hres
            intro d hd
            simp only [List.mem_singleton, DItem.diff.injEq] at hd
            subst hd
            have hne : areValuesEqual h u v true = false := by
              cases hval : areValuesEqual h u v true
              · rfl
              · exact absurd hval hneq
            exact goodDiff_changed h path u v hne
      · -- arrayElemLoop
        intro pairs path fv sv acc hc res hyp hacc hres
        cases pairs with
        | nil =>
            simp only [arrayElemLoop, Except.ok.injEq] at hres
            subst hres
            exact hacc
        | cons p rest =>
            obtain ⟨i, x, y⟩ := p
            obtain ⟨hokx, hoky, hfx, hsy⟩ := hyp (i, x, y) (List.mem_cons_self _ _)
            have hyprest : ∀ p ∈ rest, OkV h p.2.1 ∧ OkV h p.2.2 ∧
                Fresh h fv p.2.1 ∧ Fresh h sv p.2.2 :=
              fun p hp => hyp p (List.mem_cons_of_mem _ hp)
            rw [arrayElemLoop] at hres
            rw [if_neg (by simp [shouldComparePath])] at hres
            dsimp only at hres
            split at hres
            · -- object pair
              split at hres
              · split at hres
                · exact absurd hres (by simp)
                · rename_i hq
                  exact absurd rfl hq
              · exact absurd hres (by simp)
              · exact ihA rest path fv sv acc hc res hyprest hacc hres
              · exact ihA rest path fv sv acc true res hyprest hacc hres
              · rename_i l2 heq
                have hgd := ihH x y (path ++ "[" ++ toString i ++ "]") false fv sv l2
                  hokx hoky hfx hsy heq
                exact ihA rest path fv sv (acc ++ l2) true res hyprest
                  (goodAcc_append hacc hgd) hres
            split at hres
            · -- array pair
              rename_i hobj harr
              rw [Bool.and_eq_true] at harr
              obtain ⟨ha1, ha2⟩ := harr
              split at hres
              · split at hres
                · exact absurd hres (by simp)
                · rename_i hq
                  exact absurd rfl hq
              · exact absurd hres (by simp)
              · exact ihA rest path fv sv acc hc res hyprest hacc hres
              · -- nested compare said false: the pushed pair is refs-unequal
                rename_i heq
                rcases isArrayV_elim ha1 with ⟨ax, lx, rfl, hnx⟩
                rcases isArrayV_elim ha2 with ⟨ay, ly, rfl, hny⟩
                by_cases hab : ax = ay
                · subst hab
                  rcases (refl_all h f).1 (.ref ax) (path ++ "[" ++ toString i ++ "]")
                      true true fv sv hokx hfx hsy with hr | hr <;>
                    rw [heq] at hr <;> simp at hr
                · have hgood := goodDiff_changed h (path ++ "[" ++ toString i ++ "]")
                    (.ref ax) (.ref ay)
                    (aveq_strict_false_of_strictEq_false h (by simp [strictEq, hab]))
                  exact ihA rest path fv sv
                    (pushItem true (path ++ "[" ++ toString i ++ "]")
                      ⟨path ++ "[" ++ toString i ++ "]", .changed, .ref ax, .ref ay⟩ acc)
                    true res hyprest (goodAcc_push hacc hgood) hres
              · rename_i l2 heq
                have hgd := ihH x y (path ++ "[" ++ toString i ++ "]") true fv sv l2
                  hokx hoky hfx hsy heq
                exact ihA rest path fv sv (acc ++ l2) true res hyprest
                  (goodAcc_append hacc hgd) hres
            split at hres
            · -- unequal primitives
              rename_i hneq
              have hne : areValuesEqual h x y true = false := by
                cases hval : areValuesEqual h x y true
                · rfl
                · rw [hval] at hneq
                  exact absurd hneq (by decide)
              have hgood := goodDiff_changed h (path ++ "[" ++ toString i ++ "]") x y hne
              exact ihA rest path fv sv
                (pushItem true (path ++ "[" ++ toString i ++ "]")
                  ⟨path ++ "[" ++ toString i ++ "]", .changed, x, y⟩ acc)
                true res hyprest (goodAcc_push hacc hgood) hres
            · exact ihA rest path fv sv acc hc res hyprest hacc hres
      · -- objKeyLoop
        intro keys u v path fv sv acc l hobju hobjv hyp hacc hres
        cases keys with
        | nil =>
            simp only [objKeyLoop, Except.ok.injEq] at hres
            subst hres
            exact hacc
        | cons key rest =>
            have hyprest : ∀ k ∈ rest, hasOwnV h u k = true → hasOwnV h v k = true →
                OkV h (getProp h u k) ∧ OkV h (getProp h v k) ∧
                Fresh h fv (getProp h u k) ∧ Fresh h sv (getProp h v k) :=
              fun k hk => hyp k (List.mem_cons_of_mem _ hk)
            rw [objKeyLoop] at hres
            dsimp only at hres
            rw [if_neg (by simp [shouldComparePath])] at hres
            cases hfo : hasOwnV h u key with
            | false =>
                rw [if_pos (by simp [hfo])] at hres
                simp only [hfo, Bool.not_false] at hres
                exact ihK rest u v path fv sv _ l hobju hobjv hyprest
                  (goodAcc_push hacc (goodDiff_added h _ _)) hres
            | true =>
                cases hso : hasOwnV h v key with
                | false =>
                    rw [if_pos (by simp [hso])] at hres
                    simp only [hfo, hso, Bool.not_true, Bool.not_false] at hres
                    exact ihK rest u v path fv sv _ l hobju hobjv hyprest
                      (goodAcc_push hacc (goodDiff_removed h _ _)) hres
                | true =>
                    obtain ⟨hokgu, hokgv, hfgu, hfgv⟩ :=
                      hyp key (List.mem_cons_self _ _) hfo hso
                    simp only [hfo, hso, Bool.not_true, Bool.or_self] at hres
                    rw [if_neg (by simp)] at hres
                    split at hres
                    · split at hres
                      · exact absurd hres (by simp)
                      · rename_i hq
                        exact absurd trivial hq
                    · exact absurd hres (by simp)
                    · exact ihK rest u v path fv sv acc l hobju hobjv hyprest hacc hres
                    · rename_i l2 heq
                      have hgd := ihH (getProp h u key) (getProp h v key)
                        (if path ≠ "" then path ++ "." ++ key else key) false fv sv l2
                        hokgu hokgv hfgu hfgv heq
                      exact ihK rest u v path fv sv (acc ++ l2) l hobju hobjv hyprest
                        (goodAcc_append hacc hgd) hres

/-- C5 counterexample: keys may store the value `undefined` on the
present side, so a removed entry can have an `undefined` `oldValue`, a
changed entry an `undefined` `oldValue`, and an added entry an
`undefined` `newValue` — all three at once in this run. -/
theorem c5_counterexample :
    CompareValuesWithDetailedDifferences c5Heap 10 (.ref 0) (.ref 1) "" {} =
      .ok [⟨"p", .removed, .prim .undef, .prim .undef⟩,
           ⟨"x", .changed, .prim .undef, .prim (.num 5)⟩,
           ⟨"q", .added, .prim .undef, .prim .undef⟩] := rfl

/-- **C5** (amended): for every entry in the list returned by
`CompareValuesWithDetailedDifferences` under default options on acyclic
NaN-free roots: if its kind is `added` then `oldValue` is `undefined`
(but `newValue` may be `undefined` when the added key stores
`undefined`); if `removed` then `newValue` is `undefined` (but
`oldValue` may be `undefined`); if `changed` then `oldValue` and
`newValue` are unequal under the active (strict) equality semantics
(either may be `undefined`). -/
theorem c5_detailed_invariant (h : Heap) (fuel : Nat) (o1 o2 : JVal)
    (path : String) (l : List DetailedDifference)
    (hok1 : OkV h o1) (hok2 : OkV h o2)
    (hres : CompareValuesWithDetailedDifferences h fuel o1 o2 path {} = .ok l) :
    ∀ d ∈ l, (d.type = .added → d.oldValue = .prim .undef) ∧
      (d.type = .removed → d.newValue = .prim .undef) ∧
      (d.type = .changed → areValuesEqual h d.oldValue d.newValue true = false) := by
  rw [CompareValuesWithDetailedDifferences] at hres
  dsimp only at hres
  split at hres
  · simp only [Except.ok.injEq] at hres
    subst hres
    intro d hd
    exact absurd hd (List.not_mem_nil _)
  split at hres
  · exact absurd hres (by simp)
  split at hres
  · simp only [Except.ok.injEq] at hres
    subst hres
    intro d hd
    exact absurd hd (List.not_mem_nil _)
  · rename_i dl heq
    have hGood := (inv_all h fuel).1 o1 o2 path false [] [] dl hok1 hok2
      (fresh_nil h o1) (fresh_nil h o2) heq
    simp only [Except.ok.injEq] at hres
    subst hres
    intro d hd
    rcases List.mem_filterMap.mp hd with ⟨it, hit, hf⟩
    cases it with
    | path p => exact absurd hf (by simp)
    | diff d2 =>
        simp only [Option.some.injEq] at hf
        subst hf
        exact hGood d2 hit
  · split at hres
    · exact absurd hres (by simp)
    · rename_i hq
      exact absurd rfl hq
  · exact absurd hres (by simp)

/-- Heap for the C5 witness: two objects with key `x` holding the numbers
1 and 2. -/
def c5WitnessHeap : Heap := [.obj [("x", .prim (.num 1))], .obj [("x", .prim (.num 2))]]

/-- C5 witness: a concrete run of `c5_detailed_invariant` — the single
changed entry relates 1 and 2, unequal under strict equality. -/
theorem c5_witness :
    CompareValuesWithDetailedDifferences c5WitnessHeap 5 (.ref 0) (.ref 1) "" {} =
      .ok [⟨"x", .changed, .prim (.num 1), .prim (.num 2)⟩] ∧
    areValuesEqual c5WitnessHeap (.prim (.num 1)) (.prim (.num 2)) true = false := by
  refine ⟨rfl, ?_⟩
  have hinv := c5_detailed_invariant c5WitnessHeap 5 (.ref 0) (.ref 1) "" _
    ⟨3, by decide⟩ ⟨3, by decide⟩ rfl
  exact (hinv ⟨"x", .changed, .prim (.num 1), .prim (.num 2)⟩
    (List.mem_singleton.mpr rfl)).2.2 rfl
end DeepCompare
